import Mathlib

/-
  Verification development for the porter repository (Lutron protocol core,
  reaction engine, timer scheduler).

  The Python sources are shallowly embedded: Python dicts become association
  lists with in-place-overwrite insertion (dictInsert) and first-match lookup
  (dictGet), Python byte strings become lists of characters, machine floats
  that are only stored and compared become rationals, and fallible code
  returns Except/Option.  Every definition is translated from the source
  files named in its doc comment.
-/

namespace Porter

/-- Lookup in a Python dict modelled as an association list
(first binding for the key wins; a dict never holds a key twice). -/
def dictGet {κ ν : Type} [DecidableEq κ] : List (κ × ν) → κ → Option ν
  | [], _ => none
  | (k, v) :: rest, key => if k = key then some v else dictGet rest key

/-- Lookup with a default, modelling Python dict.get(key, dflt). -/
def dictGetD {κ ν : Type} [DecidableEq κ] (m : List (κ × ν)) (k : κ) (dflt : ν) : ν :=
  (dictGet m k).getD dflt

/-- Python dict assignment d[k] = v: overwrites in place if the key exists,
otherwise appends the new binding at the end (dict insertion order). -/
def dictInsert {κ ν : Type} [DecidableEq κ] : List (κ × ν) → κ → ν → List (κ × ν)
  | [], k, v => [(k, v)]
  | (k0, v0) :: rest, k, v =>
      if k0 = k then (k0, v) :: rest else (k0, v0) :: dictInsert rest k v

/-! ### brainstem.Brainstem.observe_event (src/brainstem.py lines 171-182) -/

/-- A Python scalar appearing in a selector field: an int or a string. -/
inductive PyVal where
  | int (i : Int)
  | str (s : List Char)
deriving DecidableEq, Repr

/-- A selector tuple.  Field 0 is compared by equality, field 1 is a string
tested with the Python `in` operator (substring containment), and the
remaining fields (sel[2:]) are compared by tuple equality. -/
structure Sel where
  f0 : PyVal
  f1 : List Char
  rest : List PyVal
deriving DecidableEq, Repr

/-- Python substring containment needle in hay (b in a for str). -/
def isSubstr (needle : List Char) : List Char → Bool
  | [] => needle.isPrefixOf []
  | c :: t => needle.isPrefixOf (c :: t) || isSubstr needle t

/-- The match test in the loop body of observe_event, line 179:
(sel[0] == selector[0] or sel[1] in selector[1]) and sel[2:] == selector[2:],
where sel is the registered selector and selector is the observed event. -/
def selMatch (sel selector : Sel) : Bool :=
  (sel.f0 == selector.f0 || isSubstr sel.f1 selector.f1) && sel.rest == selector.rest

/-- The registered reaction table: module -> target -> ordered dict from
selector tuple to action name (Brainstem.__init__, lines 120-134). -/
def Reactions : Type := List (String × List (String × List (Sel × String)))

/-- The for loop of observe_event: first registered pair whose selector
matches wins; returns the pending action name (standing for self.run(cmd)). -/
def firstReaction : List (Sel × String) → Sel → Option String
  | [], _ => none
  | (sel, cmd) :: rest, selector =>
      if selMatch sel selector then some cmd else firstReaction rest selector

/-- Brainstem.observe_event (lines 171-182): looks up
self.reactions.get(module, {}).get(target, {}) and scans its items in
registration order, returning the first matching command, else None. -/
def observe_event (reactions : Reactions) (module target : String) (selector : Sel) :
    Option String :=
  firstReaction (dictGetD ((dictGet reactions module).getD []) target []) selector

/-- Modelled from the words of the spec (section 4.7), for comparison with
selMatch: a match occurs when regSelector[0] == selector[0] OR
selector[1] is contained in regSelector[1], AND regSelector[2:] == selector[2:].
Note the containment direction: the observed field 1 inside the registered
field 1. -/
def specSelMatch (sel selector : Sel) : Bool :=
  (sel.f0 == selector.f0 || isSubstr selector.f1 sel.f1) && sel.rest == selector.rest

/-! ### illiplib.IlluminationClient.to_illumination_address
     (src/illiplib.py lines 254-258) and the read path inverse (line 209) -/

/-- Decimal digit list of a nonnegative integer, most significant first,
modelling Python str(n) for n >= 0. -/
def decDigits (n : Nat) : List Char :=
  if n < 10 then [Nat.digitChar n]
  else decDigits (n / 10) ++ [Nat.digitChar (n % 10)]
decreasing_by
  exact Nat.div_lt_self (by omega) (by omega)

/-- The slices s[i:i+2] for i in range(0, len(s), 2). -/
def pairChunks : List Char → List (List Char)
  | [] => []
  | [a] => [[a]]
  | a :: b :: rest => [a, b] :: pairChunks rest

/-- Python str.join with separator ':'. -/
def colonJoin : List (List Char) → List Char
  | [] => []
  | [g] => g
  | g :: g2 :: rest => g ++ ':' :: colonJoin (g2 :: rest)

/-- IlluminationClient.to_illumination_address (lines 254-258): the decimal
string of the integration id, zero padded on the left to even length, then
split into two character groups joined by colons. -/
def to_illumination_address (n : Nat) : List Char :=
  let s := decDigits n
  let s := if s.length % 2 = 1 then '0' :: s else s
  colonJoin (pairChunks s)

/-- Python int(string) on a string of decimal digits (no sign), as used by
read_raw line 209 after stripping colons. -/
def decodeDec (l : List Char) : Nat :=
  l.foldl (fun acc c => acc * 10 + (c.toNat - '0'.toNat)) 0

/-- The read path strips the colons before converting:
match.group(2).decode(...).replace(':', ''). -/
def stripColons (l : List Char) : List Char :=
  l.filter (fun c => c ≠ ':')

/-! ### brainstem.Brainstem.run (src/brainstem.py lines 143-169) -/

/-- Python runtime errors that the embedded code can raise. -/
inductive PyError where
  | attributeError
  | assertionError
  | keyError
  | recursionError
deriving DecidableEq, Repr

/-- One entry of an action sequence in brainstem.actions (lines 153-168):
a bare string recurses into another action; a tuple of fewer than four
elements is a directive (funcname, *args); a longer tuple is a dispatch
(module, target, selector, command, *args). -/
inductive Step where
  | sub (name : String)
  | directive (funcname : String) (args : List ℚ)
  | dispatch (module target selector command : String) (args : List String)
deriving DecidableEq, Repr

/-- Line 13 of brainstem.py reads from datetime import time, datetime,
timedelta, timezone, so at line 160 the name time denotes the class
datetime.time, which has no attribute named time; evaluating time.time()
raises AttributeError at runtime. -/
def timeDotTime : Except PyError ℚ :=
  .error .attributeError

/-- A dispatched client call client.run(target, selector, command, *args)
as recorded for the trace. -/
structure Dispatch where
  module : String
  target : String
  selector : String
  command : String
  args : List String
deriving DecidableEq, Repr

/-- Brainstem.run (lines 143-169) executing the named action sequence.
actions is the brainstem.actions config map, registry the set of registered
module names, ratelimits the per-action-name timestamp dict, now the value
the code intends to obtain from the wall clock.  Returns the dispatches
performed in order together with the updated ratelimits dict, or the Python
error raised.  fuel bounds the recursion through nested action names
(Python would raise RecursionError on unbounded recursion). -/
def run (actions : List (String × List Step)) (registry : List String)
    (now : ℚ) : Nat → String → List (String × ℚ) →
    Except PyError (List Dispatch × List (String × ℚ))
  | 0, _, _ => .error .recursionError
  | fuel + 1, action, ratelimits0 =>
    match dictGet actions action with
    | none => .error .assertionError
    | some [] => .error .assertionError
    | some seq => go fuel action seq ratelimits0
where
  /-- The for loop over the steps of one sequence. -/
  go (fuel : Nat) (action : String) :
      List Step → List (String × ℚ) → Except PyError (List Dispatch × List (String × ℚ))
    | [], rl => .ok ([], rl)
    | step :: rest, rl =>
      match step with
      | .sub name =>
        match run actions registry now fuel name rl with
        | .error e => .error e
        | .ok (ds, rl1) =>
          match go fuel action rest rl1 with
          | .error e => .error e
          | .ok (ds2, rl2) => .ok (ds ++ ds2, rl2)
      | .directive funcname args =>
        if funcname = "ratelimit" ∧ args.length = 1 then
          -- last = self.ratelimits.get(action, 0); now = time.time() raises
          let _last := dictGetD rl action 0
          match timeDotTime with
          | .error e => .error e
          | .ok nowv =>
            -- dead code under the actual import; kept for structure
            if nowv - _last < args.headD 0 then .ok ([], rl)
            else
              match go fuel action rest (dictInsert rl action nowv) with
              | .error e => .error e
              | .ok (ds, rl2) => .ok (ds, rl2)
        else
          go fuel action rest rl
      | .dispatch m t sel cmd args =>
        if m ∈ registry then
          match go fuel action rest rl with
          | .error e => .error e
          | .ok (ds, rl2) => .ok (⟨m, t, sel, cmd, args⟩ :: ds, rl2)
        else .error .keyError

/-! ### lutron.Lipservice.poll (src/lutron.py lines 190-246)
     and Lipservice._increment_counter (lines 184-188) -/

/-- Python int() applied to a float (here a rational): truncation toward
zero. -/
def pyTrunc (q : ℚ) : Int :=
  Int.tdiv q.num q.den

/-- A decoded frame as returned by liplib.LipServer.read:
(mode string, integration id int, action int, value float). -/
structure Frame where
  mode : String
  b : Int
  c : Int
  d : ℚ
deriving DecidableEq, Repr

/-- The mutable counter and level state of one Lipservice
(lutron.py lines 152-156). -/
structure LipState where
  scene : List (Int × Nat)
  device : List ((Int × Int) × Nat)
  levels : List (Int × Option ℚ)
deriving DecidableEq, Repr

/-- Lipservice._increment_counter specialized to increment 1:
new_value = map.get(key, 0) + 1; map[key] = new_value. -/
def incrementCounter {κ : Type} [DecidableEq κ] (m : List (κ × Nat)) (k : κ) :
    List (κ × Nat) :=
  dictInsert m k (dictGetD m k 0 + 1)

/-- Lipservice.poll (lines 190-246) restricted to its state effect on one
decoded frame.  DEVICE frames convert all three fields with int(); PRESS
(button code 3) on deviceid 1 counts a scene, on other ids a
(deviceid, component) press; other button actions are ignored.  OUTPUT and
SHADEGRP frames with action SET (1) store the level; RAISING (2),
LOWERING (3), STOP (4) and the undocumented codes 29 and 30 are ignored;
unknown actions only print.  GROUP frames with action 3 store a synthetic
level; everything else leaves the state unchanged. -/
def pollStep (s : LipState) (fr : Frame) : LipState :=
  if fr.mode = "DEVICE" then
    let deviceid := fr.b
    let component := fr.c
    let action := pyTrunc fr.d
    if action = 3 then
      if deviceid = 1 then
        { s with scene := incrementCounter s.scene component }
      else
        { s with device := incrementCounter s.device (deviceid, component) }
    else s
  else if fr.mode = "OUTPUT" ∨ fr.mode = "SHADEGRP" then
    if fr.c = 1 then { s with levels := dictInsert s.levels fr.b (some fr.d) }
    else if fr.c = 2 then s
    else if fr.c = 3 then s
    else if fr.c = 4 then s
    else if fr.c = 29 ∨ fr.c = 30 then s
    else s
  else if fr.mode = "GROUP" then
    if fr.c = 3 then
      let val : ℚ := if fr.d = 3 then 100 else if fr.d = 4 then 0 else -1
      { s with levels := dictInsert s.levels fr.b (some val) }
    else s
  else s

/-! ### brainstem.Timers (src/brainstem.py lines 24-71) -/

/-- Seconds in a civil day; dates are modelled as day numbers and instants
as seconds since the epoch, so now.date() is now / 86400 and
datetime.combine(day, t) is day * 86400 + t. -/
def daySecs : Nat := 86400

/-- The binary heap of (fire instant, action) pairs is modelled as a list
kept sorted by fire instant: heappush/heapify establish the order and
heappop takes the head. -/
def sortByTime (l : List (Nat × String)) : List (Nat × String) :=
  List.insertionSort (fun a b => a.1 ≤ b.1) l

/-- The state of brainstem.Timers: the configured (time of day, action)
pairs, the reference date self.today, and the heap of pending timers. -/
structure TimersState where
  timers : List (Nat × String)
  today : Nat
  heap : List (Nat × String)
deriving DecidableEq, Repr

/-- Timers.__init__ (lines 25-40): remembers the configured timers, sets
self.today to the current date and fills the heap with today's instances
of every timer that is not already in the past. -/
def timersInit (timers : List (Nat × String)) (now : Nat) : TimersState :=
  let today := now / daySecs
  { timers := timers
    today := today
    heap := sortByTime (((timers.map fun p => (today * daySecs + p.1, p.2)).filter
      fun p => now ≤ p.1)) }

/-- The date-rollover prelude of process_timers (lines 48-55): when the
wall-clock date has advanced past self.today, every timer still pending in
the heap is popped and run, and the heap is rebuilt with the full timer
set instantiated on the new date. -/
def rollover (s : TimersState) (now : Nat) : List String × TimersState :=
  if s.today < now / daySecs then
    (s.heap.map Prod.snd,
     { s with
        today := now / daySecs
        heap := sortByTime (s.timers.map fun p => ((now / daySecs) * daySecs + p.1, p.2)) })
  else ([], s)

/-- What process_timers returns: either it ran a due timer (or rolled the
date over) and reschedules itself immediately, or it returns a suspension
of the given number of seconds. -/
inductive TimerOutcome where
  | again
  | sleep (secs : Int)
deriving DecidableEq, Repr

/-- Timers.process_timers (lines 45-71): after the rollover prelude, if the
earliest heap entry is due now or in the past it is popped and run and the
coroutine reschedules immediately; if it is due in the future the coroutine
suspends for exactly that long; with an empty heap it suspends until the
next midnight.  Returns (actions run, outcome, new state). -/
def process_timers (s : TimersState) (now : Nat) :
    List String × TimerOutcome × TimersState :=
  let (fired, s1) := rollover s now
  match s1.heap with
  | [] =>
      (fired, .sleep ((((s1.today + 1) * daySecs : Nat) : Int) - (now : Int)), s1)
  | (t, action) :: rest =>
      let future : Int := (t : Int) - (now : Int)
      if future ≤ 0 then
        (fired ++ [action], .again, { s1 with heap := rest })
      else
        (fired, .sleep future, s1)

/-! ### lutron.ConfigParams (src/lutron.py lines 55-139):
     process_integration_report, dump_integration_yaml_string,
     _process_integration_yaml -/

/-- A button of a device in the integration report: js Buttons entries with
Number and Name. -/
structure RButton where
  number : Int
  name : String
deriving DecidableEq, Repr

/-- A device of the integration report (LIPIdList Devices entry), with the
Area name already defaulted to the empty string as by
device.get('Area', {}).get('Name', '') and the Buttons list defaulted
to []. -/
structure RDevice where
  id : Int
  name : String
  area : String
  buttons : List RButton
deriving DecidableEq, Repr

/-- A zone of the integration report (LIPIdList Zones entry). -/
structure RZone where
  id : Int
  name : String
  area : String
deriving DecidableEq, Repr

/-- The LIPIdList of an integration report. -/
structure Report where
  devices : List RDevice
  zones : List RZone
deriving DecidableEq, Repr

/-- One element of an areaname_to_devices list: sensors are appended as the
triple (ID, Name, buttons) and dimmers as the pair (ID, Name). -/
inductive AreaEntry where
  | sensor (id : Int) (name : String) (buttons : List Int)
  | dimmer (id : Int) (name : String)
deriving DecidableEq, Repr

/-- The four maps a ConfigParams carries after processing integration data
(lutron.py lines 82-85 / 115-118). -/
structure Directory where
  scenes : List (Int × String)
  sensors : List (Int × (String × String × List Int))
  dimmers : List (Int × (String × String))
  areas : List (String × List AreaEntry)
deriving DecidableEq, Repr

/-- add_device (lines 86-91): appends the tuple to the list stored under the
area name, creating the binding (at the end, dict order) if absent. -/
def addDevice : List (String × List AreaEntry) → String → AreaEntry →
    List (String × List AreaEntry)
  | [], an, e => [(an, [e])]
  | (k, lis) :: rest, an, e =>
      if k = an then (k, lis ++ [e]) :: rest
      else (k, lis) :: addDevice rest an e

/-- The Devices loop of process_integration_report (lines 93-104): device 1
is the Smart Bridge whose buttons not named Button ... are scenes; every
other device is a sensor recorded both in deviceid_to_sensortuple and in
its area's device list. -/
def processDevice (d : Directory) (dev : RDevice) : Directory :=
  if dev.id = 1 then
    let sc := dev.buttons.foldl
      (fun acc b => if b.name.startsWith "Button " then acc
        else dictInsert acc b.number b.name) d.scenes
    { d with scenes := sc }
  else
    let st := dictInsert d.sensors dev.id (dev.name, dev.area, dev.buttons.map (·.number))
    let ar := addDevice d.areas dev.area (.sensor dev.id dev.name (dev.buttons.map (·.number)))
    { d with sensors := st, areas := ar }

/-- The Zones loop of process_integration_report (lines 106-109). -/
def processZone (d : Directory) (z : RZone) : Directory :=
  { d with
      dimmers := dictInsert d.dimmers z.id (z.name, z.area)
      areas := addDevice d.areas z.area (.dimmer z.id z.name) }

/-- ConfigParams.process_integration_report (lines 74-109): resets the four
maps, then the Devices loop followed by the Zones loop. -/
def process_integration_report (r : Report) : Directory :=
  r.zones.foldl processZone (r.devices.foldl processDevice ⟨[], [], [], []⟩)

/-- Ordering Int keyed items as by Python sorted(). -/
def sortByIntKey {ν : Type} (l : List (Int × ν)) : List (Int × ν) :=
  List.insertionSort (fun a b => a.1 ≤ b.1) l

/-- Byte-wise lexicographic less-or-equal on strings, the order Python
sorted() uses for str keys.  Only the fact that sorting permutes the list
is used below. -/
def strLeB : List Char → List Char → Bool
  | [], _ => true
  | _ :: _, [] => false
  | a :: as, b :: bs => if a = b then strLeB as bs else decide (a < b)

/-- Ordering String keyed items as by Python sorted(). -/
def sortByStrKey {ν : Type} (l : List (String × ν)) : List (String × ν) :=
  List.insertionSort (fun a b => strLeB a.1.data b.1.data) l

/-- The single-quote character, written by code point to keep it apart
from the surrounding notation. -/
def quoteChar : Char := Char.ofNat 39

/-- The text the %-format of lines 134 and 137-138 produces for a name: the
name wrapped in single quotes.  Nothing is escaped: a quote character
inside the name is emitted as-is, although the YAML single-quoted style
being produced would require it doubled. -/
def pyQuote (s : List Char) : List Char :=
  quoteChar :: s ++ [quoteChar]

/-- One flattened area entry as it appears in the dumped YAML text: ids and
button numbers print unambiguously, so they are kept structured, while the
name field is kept as the emitted quoted text. -/
inductive FlatEntry where
  | sensor (id : Int) (nameText : List Char) (buttons : List Int)
  | dimmer (id : Int) (nameText : List Char)
deriving DecidableEq, Repr

/-- The dumped YAML document: the scenes block and the areas block in the
emitted order, with every name held as its emitted quoted text. -/
structure FlatConfig where
  scenes : List (Int × List Char)
  areas : List (List Char × List FlatEntry)
deriving DecidableEq, Repr

/-- How line 137 formats one area entry: because the stored sensor tuple is
(ID, Name, buttons-list), the star unpacking leaves buttons holding the
single element buttons-list and the flow entry is [id, 'name', [b1, ...]];
a dimmer pair is emitted as [id, 'name'].  The name goes through the
unescaped quote format. -/
def entryToFlat : AreaEntry → FlatEntry
  | .sensor id name bl => .sensor id (pyQuote name.data) bl
  | .dimmer id name => .dimmer id (pyQuote name.data)

/-- ConfigParams.dump_integration_yaml_string (lines 127-139): the scenes
dict sorted by scene id and the areas dict sorted by area name, each name
emitted through the "'%s'" format of lines 134 and 137-138. -/
def dump_integration_yaml (d : Directory) : FlatConfig :=
  ⟨(sortByIntKey d.scenes).map fun p => (p.1, pyQuote p.2.data),
   (sortByStrKey d.areas).map fun p => (pyQuote p.1.data, p.2.map entryToFlat)⟩

/-- The body of a YAML single-quoted scalar, scanned after the opening
quote: a doubled quote stands for one literal quote, a single quote closes
the scalar, anything else is content (YAML 1.1 section 9, the style the
dump emits).  Returns the decoded content and the text after the closing
quote, or nothing when the scalar is unterminated. -/
def parseSQBody : List Char → Option (List Char × List Char)
  | [] => none
  | c :: t =>
      if c = quoteChar then
        match t with
        | [] => some ([], [])
        | c2 :: t2 =>
            if c2 = quoteChar then
              (parseSQBody t2).map fun p => (quoteChar :: p.1, p.2)
            else some ([], t)
      else (parseSQBody t).map fun p => (c :: p.1, p.2)

/-- A YAML single-quoted scalar: an opening quote then its body. -/
def parseSQ : List Char → Option (List Char × List Char)
  | [] => none
  | c :: t => if c = quoteChar then parseSQBody t else none

/-- Reading one emitted name token back: it must parse as a single-quoted
scalar consuming the whole token, else the document is malformed and the
load fails. -/
def unquote (t : List Char) : Option String :=
  match parseSQ t with
  | some (content, []) => some (String.mk content)
  | _ => none

/-- Sequential fallible traversal: the load stops at the first component
that fails to parse. -/
def optMapList {α β : Type} (f : α → Option β) : List α → Option (List β)
  | [] => some []
  | x :: t =>
      match f x with
      | none => none
      | some y => (optMapList f t).map fun ys => y :: ys

/-- Reading one flattened area entry back: ids and buttons are exact, the
name token must unquote. -/
def parseFlatEntry : FlatEntry → Option AreaEntry
  | .sensor id t bl => (unquote t).map fun n => AreaEntry.sensor id n bl
  | .dimmer id t => (unquote t).map fun n => AreaEntry.dimmer id n

/-- Reading one area block back: the area-name token and every entry. -/
def parseFlatArea (p : List Char × List FlatEntry) :
    Option (String × List AreaEntry) :=
  match unquote p.1 with
  | none => none
  | some an => (optMapList parseFlatEntry p.2).map fun es => (an, es)

/-- Reading the whole dumped document back into the scenes and areas maps
_process_integration_yaml starts from (what yaml.safe_load hands it):
every name token must parse back as a complete single-quoted scalar. -/
def parseFlatConfig (fc : FlatConfig) :
    Option (List (Int × String) × List (String × List AreaEntry)) :=
  (optMapList (fun p => (unquote p.2).map fun n => (p.1, n)) fc.scenes).bind
    fun sc => (optMapList parseFlatArea fc.areas).map fun ar => (sc, ar)

/-- A name survives the unescaped quote format only when it contains no
quote character itself. -/
abbrev strOk (s : String) : Prop := quoteChar ∉ s.data

/-- Quote-freedom of the name stored in an area entry. -/
def entryOk : AreaEntry → Prop
  | .sensor _ n _ => strOk n
  | .dimmer _ n => strOk n

/-- Quote-freedom of one binding of an areaname_to_devices map. -/
def areaOkP (p : String × List AreaEntry) : Prop :=
  strOk p.1 ∧ ∀ e ∈ p.2, entryOk e

/-- The inner loop of _process_integration_yaml (lines 119-125) over one
area's device list: entries without buttons become dimmer tuples, entries
with the (single, nested) buttons list become sensor tuples keyed under the
area name being iterated. -/
def yamlEntry (an : String) (d : Directory) : AreaEntry → Directory
  | .dimmer id name => { d with dimmers := dictInsert d.dimmers id (name, an) }
  | .sensor id name bl => { d with sensors := dictInsert d.sensors id (name, an, bl) }

/-- ConfigParams._process_integration_yaml (lines 111-125) on the scenes and
areas maps denoted by the config: keeps them as sceneid_to_name and
areaname_to_devices and rebuilds the dimmer and sensor maps from the area
lists in iteration order. -/
def process_integration_yaml (scenes : List (Int × String))
    (areas : List (String × List AreaEntry)) : Directory :=
  areas.foldl (fun d p => p.2.foldl (yamlEntry p.1) d)
    { scenes := scenes, sensors := [], dimmers := [], areas := areas }

/-- Folding dict assignment over a list of key-value pairs, the shape both
map-building loops take. -/
def insertAll {κ ν : Type} [DecidableEq κ] (m : List (κ × ν)) (ps : List (κ × ν)) :
    List (κ × ν) :=
  ps.foldl (fun acc p => dictInsert acc p.1 p.2) m

/-- The dimmer-tuple binding an area entry denotes under its area name. -/
def dimmerPair (an : String) : AreaEntry → Option (Int × (String × String))
  | .dimmer id name => some (id, (name, an))
  | .sensor _ _ _ => none

/-- The sensor-tuple binding an area entry denotes under its area name. -/
def sensorPair (an : String) : AreaEntry → Option (Int × (String × String × List Int))
  | .sensor id name bl => some (id, (name, an, bl))
  | .dimmer _ _ => none

/-- All bindings of one kind denoted by an areaname_to_devices map, in
iteration order. -/
def areaPairs {β : Type} (f : String → AreaEntry → Option β)
    (areas : List (String × List AreaEntry)) : List β :=
  areas.flatMap fun p => p.2.filterMap (f p.1)

/-- The dimmer-tuple bindings the Zones loop inserts, in order. -/
def zonePairs (zs : List RZone) : List (Int × (String × String)) :=
  zs.map fun z => (z.id, (z.name, z.area))

/-- The sensor-tuple bindings the Devices loop inserts, in order. -/
def sensorPairs (devs : List RDevice) : List (Int × (String × String × List Int)) :=
  (devs.filter fun dev => dev.id ≠ 1).map
    fun dev => (dev.id, (dev.name, dev.area, dev.buttons.map (·.number)))

/-- A small concrete integration report: the Bridge owning scene 3 Movie
Time and an ordinary button slot, a Pico in the Kitchen with two buttons,
and one dimmer zone in the Den. -/
def exampleReport : Report :=
  ⟨[⟨1, String.mk ['B', 'r', 'i', 'd', 'g', 'e'], String.mk [],
     [⟨3, String.mk ['M', 'o', 'v', 'i', 'e', ' ', 'T', 'i', 'm', 'e']⟩,
      ⟨5, String.mk ['B', 'u', 't', 't', 'o', 'n', ' ', '5']⟩]⟩,
    ⟨28, String.mk ['P', 'i', 'c', 'o'], String.mk ['K', 'i', 't', 'c', 'h', 'e', 'n'],
     [⟨2, String.mk ['b', '2']⟩, ⟨3, String.mk ['b', '3']⟩]⟩],
   [⟨23, String.mk ['L', 'a', 'm', 'p'], String.mk ['D', 'e', 'n']⟩]⟩

/-- A zone name holding a quote character, as a possessive would. -/
def exBadName : String := String.mk ['B', 'o', 'b', quoteChar, 's']

/-- A report with a single zone whose name contains a quote character. -/
def exBadReport : Report :=
  ⟨[], [⟨23, exBadName, String.mk ['D', 'e', 'n']⟩]⟩

/-! ### liplib.LipServer.open (src/liplib.py lines 132-167) and
     illiplib.IlluminationClient.open (src/illiplib.py lines 95-139) -/

/-- Connection state values (liplib lines 108-113, illiplib lines 71-76). -/
inductive ConnState where
  | Closed
  | Opening
  | Opened
deriving DecidableEq, Repr

/-- The environment one call to open runs against: whether
asyncio.open_connection succeeds, and the outcome of the n-th _read_until
call (true: data arrived and the expected text was found; false: the read
returned False because the peer disconnected or an OSError occurred) and of
the n-th write-plus-drain (false: drain raises OSError, which open does not
catch). -/
structure OpenEnv where
  connectOk : Bool
  readOk : Nat → Bool
  writeOk : Nat → Bool

/-- What a call to open leaves behind: the connection state field and
whether an exception escaped to the caller. -/
structure OpenResult where
  state : ConnState
  raised : Bool
deriving DecidableEq, Repr

/-- LipServer.open (liplib lines 132-167) called in state Closed.  A refused
connection is caught and leaves Closed.  The three _read_until results
during the login exchange (login prompt, password prompt, command prompt)
are not checked, so read failures are ignored; each of the two credential
writes can raise out of open; if no write raises, open always ends
Opened. -/
def lipOpen (env : OpenEnv) : OpenResult :=
  if ¬ env.connectOk then ⟨.Closed, false⟩
  else
    let _loginPrompt := env.readOk 0
    if ¬ env.writeOk 0 then ⟨.Opening, true⟩
    else
      let _passwordPrompt := env.readOk 1
      if ¬ env.writeOk 1 then ⟨.Opening, true⟩
      else
        let _prompt := env.readOk 2
        ⟨.Opened, false⟩

/-- IlluminationClient.open (illiplib lines 95-139) called in state Closed:
unlike LipServer.open it checks every _read_until result and runs cleanup
(leaving Closed) when one is False; write failures still raise.  Reads 0
and 1 are the LOGIN: prompt and the login successful line; reads 2-5 are
the four monitoring enabled confirmations, each after its kbmon / dlmon /
klmon / gsmon write (the for loop of lines 132-136 unrolled). -/
def illipOpen (env : OpenEnv) : OpenResult :=
  if ¬ env.connectOk then ⟨.Closed, false⟩
  else if ¬ env.readOk 0 then ⟨.Closed, false⟩
  else if ¬ env.writeOk 0 then ⟨.Opening, true⟩
  else if ¬ env.readOk 1 then ⟨.Closed, false⟩
  else if ¬ env.writeOk 1 then ⟨.Opening, true⟩
  else if ¬ env.readOk 2 then ⟨.Closed, false⟩
  else if ¬ env.writeOk 2 then ⟨.Opening, true⟩
  else if ¬ env.readOk 3 then ⟨.Closed, false⟩
  else if ¬ env.writeOk 3 then ⟨.Opening, true⟩
  else if ¬ env.readOk 4 then ⟨.Closed, false⟩
  else if ¬ env.writeOk 4 then ⟨.Opening, true⟩
  else if ¬ env.readOk 5 then ⟨.Closed, false⟩
  else ⟨.Opened, false⟩

/-! ### lutron.LutronClient.__init__ and collect
     (src/lutron.py lines 291-298 and 304-337) -/

/-- LutronClient.__init__ (line 298): self.clientstarttime = time.time()
records the instant the client object is constructed, once for the whole
client, before any connection exists. -/
structure LutronClientS where
  clientstarttime : ℚ
deriving DecidableEq, Repr

/-- LutronClient.__init__ run at wall-clock instant now. -/
def lutronClientInit (now : ℚ) : LutronClientS :=
  ⟨now⟩

/-- A live Lipservice connection for one target: the instant its socket was
opened by LipserviceManager.poll, plus the counter and level state its
poll loop maintains. -/
structure LipserviceS where
  openedAt : ℚ
  st : LipState
deriving DecidableEq, Repr

/-- The result of LutronClient.collect: the output_level_pct gauge rows,
and the press_actions counter family whose created timestamp is the
argument passed at line 317 (created=self.clientstarttime). -/
structure CollectResult where
  gauges : List (Int × String × String × ℚ)
  created : ℚ
  sceneRows : List (String × Int × Nat)
  deviceRows : List (Int × Option String × Int × Option String × Nat)
deriving DecidableEq, Repr

/-- The label lookup for a device counter row (lines 331-333): the sensor
tuple if known, otherwise the dimmer tuple, otherwise None labels. -/
def deviceLabels (cf : Directory) (deviceid : Int) : Option String × Option String :=
  match dictGet cf.sensors deviceid with
  | some (name, area, _) => (some name, some area)
  | none =>
      match dictGet cf.dimmers deviceid with
      | some (name, area) => (some name, some area)
      | none => (none, none)

/-- LutronClient.collect (lines 304-337) for a target whose Lipservice
exists: gauge rows for every non-None output level, and counter rows for
both press maps; the counter family carries
created = self.clientstarttime. -/
def collect (client : LutronClientS) (cf : Directory) (lips : LipserviceS) :
    CollectResult :=
  { gauges := lips.st.levels.filterMap fun p =>
      match p.2 with
      | none => none
      | some lv =>
          let nm := dictGetD cf.dimmers p.1 ("", "")
          some (p.1, nm.1, nm.2, lv)
    created := client.clientstarttime
    sceneRows := lips.st.scene.map fun p => (dictGetD cf.scenes p.1 "", p.1, p.2)
    deviceRows := lips.st.device.map fun p =>
      let lb := deviceLabels cf p.1.1
      (p.1.1, lb.1, p.1.2, lb.2, p.2) }

/-! ### liplib.LipServer._read_until (src/liplib.py lines 169-193) and
     illiplib.IlluminationClient._read_until (src/illiplib.py lines
     141-165); both loops are identical. -/

/-- Python bytes.find(sub): index of the first occurrence, None here for
the -1 not-found result. -/
def findSub (term : List Char) : List Char → Option Nat
  | [] => if term.isPrefixOf [] then some 0 else none
  | c :: t =>
      if term.isPrefixOf (c :: t) then some 0
      else (findSub term t).map (· + 1)

/-- _read_until with a literal byte-sequence terminator.  buf is the
current _read_buffer; chunks are the successive results of
reader.read(READ_SIZE), each nonempty chunk being appended before the
buffer is searched again.  An empty chunk is the zero-length read: the
function returns the failure signal (None here for Python False).  An
exhausted chunk list stands for a stream that has ended, whose further
reads are all zero-length. -/
def read_until_bytes (term : List Char) : List (List Char) → List Char → Option (List Char)
  | [], buf =>
      match findSub term buf with
      | some i => some (buf.take (i + term.length))
      | none => none
  | c :: rest, buf =>
      match findSub term buf with
      | some i => some (buf.take (i + term.length))
      | none =>
          if c.isEmpty then none
          else read_until_bytes term rest (buf ++ c)

/-- The character class [A-Z] of liplib.RESPONSE_RE. -/
def isUpperAZ (c : Char) : Bool :=
  'A' ≤ c && c ≤ 'Z'

/-- The character class [0-9.] of liplib.RESPONSE_RE. -/
def isDigDot (c : Char) : Bool :=
  ('0' ≤ c && c ≤ '9') || c = '.'

/-- Single literal character of the pattern: consumes it or fails. -/
def pCh (ch : Char) : List Char → Option (List Char)
  | [] => none
  | c :: t => if c = ch then some t else none

/-- Greedy nonempty character class of the pattern: the maximal run of
class characters, failing on an empty run.  Because every class of
RESPONSE_RE is followed by a character outside the class, greedy matching
with no backtracking is exactly what the regex engine does. -/
def pCls (p : Char → Bool) (l : List Char) : Option (List Char × List Char) :=
  let g := l.takeWhile p
  if g.isEmpty then none else some (g, l.dropWhile p)

/-- An anchored match of RESPONSE_RE =
~([A-Z]+),([0-9.]+),([0-9.]+),([0-9.]+)\r\n at the head of l, returning
(matched text, remaining input). -/
def matchRespAt (l : List Char) : Option (List Char × List Char) :=
  match pCh '~' l with
  | none => none
  | some r0 =>
  match pCls isUpperAZ r0 with
  | none => none
  | some (g1, r1) =>
  match pCh ',' r1 with
  | none => none
  | some r2 =>
  match pCls isDigDot r2 with
  | none => none
  | some (g2, r3) =>
  match pCh ',' r3 with
  | none => none
  | some r4 =>
  match pCls isDigDot r4 with
  | none => none
  | some (g3, r5) =>
  match pCh ',' r5 with
  | none => none
  | some r6 =>
  match pCls isDigDot r6 with
  | none => none
  | some (g4, r7) =>
  match pCh '\r' r7 with
  | none => none
  | some r8 =>
  match pCh '\n' r8 with
  | none => none
  | some r9 =>
      some ('~' :: g1 ++ ',' :: g2 ++ ',' :: g3 ++ ',' :: g4 ++ '\r' :: '\n' :: [], r9)

/-- re.search of RESPONSE_RE: the match at the leftmost position where the
anchored pattern matches, returned as (start index, matched text). -/
def searchResp : List Char → Option (Nat × List Char)
  | [] =>
      match matchRespAt [] with
      | some (c, _) => some (0, c)
      | none => none
  | x :: t =>
      match matchRespAt (x :: t) with
      | some (c, _) => some (0, c)
      | none => (searchResp t).map fun p => (p.1 + 1, p.2)

/-- _read_until with the RESPONSE_RE line-pattern terminator: the buffer is
searched after each nonempty read; on a match the matched frame is
returned; a zero-length read (or the ended stream) yields the failure
signal. -/
def read_until_resp : List (List Char) → List Char → Option (List Char)
  | [], buf =>
      match searchResp buf with
      | some (_, c) => some c
      | none => none
  | ch :: rest, buf =>
      match searchResp buf with
      | some (_, c) => some c
      | none =>
          if ch.isEmpty then none
          else read_until_resp rest (buf ++ ch)

/-- The character class [0-9.:] of the address group of
illiplib.RESPONSE_RE (illiplib.py line 46). -/
def isDigDotColon (c : Char) : Bool :=
  ('0' ≤ c && c ≤ '9') || c = '.' || c = ':'

/-- The space character test of the space runs of illiplib.RESPONSE_RE. -/
def isSp (c : Char) : Bool :=
  c = ' '

/-- A possibly-empty greedy space run, the ' '* pieces of the pattern.
Every space run is followed by a character that is not a space ('[', a
digit, or the carriage return), so the maximal run with no backtracking is
what the regex engine keeps. -/
def pSp (l : List Char) : List Char × List Char :=
  (l.takeWhile isSp, l.dropWhile isSp)

/-- The optional fourth field (, *([0-9.]+))? of illiplib.RESPONSE_RE.
The engine commits to the group exactly when the next character is a
comma: with a comma there, declining the group leaves ' *\r\n' to match
starting at that comma, which is impossible, and backtracking the greedy
number group only moves the comma test onto a digit; so the group is
entered if and only if a comma follows, and once entered it must complete
or the whole match at this start fails. -/
def matchIllipOpt : List Char → Option (List Char × List Char)
  | [] => some ([], [])
  | c :: r7 =>
      if c = ',' then
        match pCls isDigDot (pSp r7).2 with
        | none => none
        | some (g4, r8) => some (',' :: (pSp r7).1 ++ g4, r8)
      else some ([], c :: r7)

/-- An anchored match of illiplib.RESPONSE_RE after its leading [A-Z]+
group: the comma, a space run, the bracketed [0-9.:]+ address, the comma,
a space run, the [0-9.]+ value, the optional fourth field, a trailing
space run and the \r\n line end.  Returns (text consumed, remaining
input). -/
def matchIllipAfterG1 (l : List Char) : Option (List Char × List Char) :=
  match pCh ',' l with
  | none => none
  | some r1 =>
  match pCh '[' (pSp r1).2 with
  | none => none
  | some r2 =>
  match pCls isDigDotColon r2 with
  | none => none
  | some (g2, r3) =>
  match pCh ']' r3 with
  | none => none
  | some r4 =>
  match pCh ',' r4 with
  | none => none
  | some r5 =>
  match pCls isDigDot (pSp r5).2 with
  | none => none
  | some (g3, r6) =>
  match matchIllipOpt r6 with
  | none => none
  | some (o, r8) =>
  match pCh '\r' (pSp r8).2 with
  | none => none
  | some r9 =>
  match pCh '\n' r9 with
  | none => none
  | some r10 =>
      some (',' :: (pSp r1).1 ++ '[' :: g2 ++ ']' :: ',' :: (pSp r5).1 ++ g3 ++
        o ++ (pSp r8).1 ++ '\r' :: '\n' :: [], r10)

/-- An anchored match of the whole illiplib.RESPONSE_RE =
([A-Z]+), *\[([0-9.:]+)\], *([0-9.]+)(, *([0-9.]+))? *\r\n at the head of
l.  A shorter letter run can never help (it would have to be followed by
the comma, but ends at an uppercase letter), so the greedy run with no
backtracking is what the regex engine finds. -/
def matchIllipAt (l : List Char) : Option (List Char × List Char) :=
  match pCls isUpperAZ l with
  | none => none
  | some (g1, r1) =>
      (matchIllipAfterG1 r1).map fun p => (g1 ++ p.1, p.2)

/-- re.search of illiplib.RESPONSE_RE: the match at the leftmost position
where the anchored pattern matches, returned as (start index, matched
text). -/
def searchIllip : List Char → Option (Nat × List Char)
  | [] =>
      match matchIllipAt [] with
      | some (c, _) => some (0, c)
      | none => none
  | x :: t =>
      match matchIllipAt (x :: t) with
      | some (c, _) => some (0, c)
      | none => (searchIllip t).map fun p => (p.1 + 1, p.2)

/-- _read_until with the illiplib RESPONSE_RE terminator, the terminator
read_raw passes (illiplib.py line 203): the buffer is searched after each
nonempty read; on a match the matched frame is returned; a zero-length
read (or the ended stream) yields the failure signal. -/
def read_until_iresp : List (List Char) → List Char → Option (List Char)
  | [], buf =>
      match searchIllip buf with
      | some (_, c) => some c
      | none => none
  | ch :: rest, buf =>
      match searchIllip buf with
      | some (_, c) => some c
      | none =>
          if ch.isEmpty then none
          else read_until_iresp rest (buf ++ ch)

/-- The text the optional fourth field contributes to a match. -/
def optText : Option (List Char × List Char) → List Char
  | none => []
  | some (sp3, g4) => ',' :: sp3 ++ g4

/-- The text an illiplib.RESPONSE_RE match consumes after its leading
letter group, assembled from the six remaining pieces. -/
def illipTail (sp1 g2 sp2 g3 : List Char) (opt : Option (List Char × List Char))
    (sp4 : List Char) : List Char :=
  ',' :: sp1 ++ '[' :: g2 ++ ']' :: ',' :: sp2 ++ g3 ++ optText opt ++ sp4 ++
    '\r' :: '\n' :: []

/-- The side conditions of the optional fourth field: when present, its
space run holds spaces and its number group is a nonempty [0-9.] run. -/
def optOk : Option (List Char × List Char) → Prop
  | none => True
  | some (sp3, g4) => (∀ x ∈ sp3, x = ' ') ∧ g4 ≠ [] ∧ ∀ x ∈ g4, isDigDot x = true

/-- The side conditions of an illiplib.RESPONSE_RE match tail: the space
runs hold spaces, the address and value groups are nonempty runs of their
classes, and so is the optional fourth field when present. -/
def illipTailOk (sp1 g2 sp2 g3 : List Char) (opt : Option (List Char × List Char))
    (sp4 : List Char) : Prop :=
  (∀ x ∈ sp1, x = ' ') ∧ (g2 ≠ [] ∧ ∀ x ∈ g2, isDigDotColon x = true) ∧
  (∀ x ∈ sp2, x = ' ') ∧ (g3 ≠ [] ∧ ∀ x ∈ g3, isDigDot x = true) ∧
  optOk opt ∧ (∀ x ∈ sp4, x = ' ')

/-! ## Theorems -/

/-! ### Association-list dictionary lemmas -/

theorem dictGet_dictInsert_self {κ ν : Type} [DecidableEq κ] (m : List (κ × ν))
    (k : κ) (v : ν) : dictGet (dictInsert m k v) k = some v := by
  induction m with
  | nil => simp [dictInsert, dictGet]
  | cons hd tl ih =>
      obtain ⟨k0, v0⟩ := hd
      by_cases h : k0 = k <;> simp [dictInsert, dictGet, h, ih]

theorem dictGet_dictInsert_ne {κ ν : Type} [DecidableEq κ] (m : List (κ × ν))
    (k k' : κ) (v : ν) (h : k' ≠ k) :
    dictGet (dictInsert m k v) k' = dictGet m k' := by
  have hkk : k ≠ k' := fun hh => h hh.symm
  induction m with
  | nil =>
      simp only [dictInsert, dictGet]
      rw [if_neg hkk]
  | cons hd tl ih =>
      obtain ⟨k0, v0⟩ := hd
      simp only [dictInsert]
      by_cases h0 : k0 = k
      · rw [if_pos h0]
        simp only [dictGet]
        rw [if_neg (h0 ▸ hkk), if_neg (h0 ▸ hkk)]
      · rw [if_neg h0]
        simp only [dictGet]
        by_cases h1 : k0 = k'
        · rw [if_pos h1, if_pos h1]
        · rw [if_neg h1, if_neg h1, ih]

/-! ### C1: observe_event selector matching -/

theorem firstReaction_eq_find (l : List (Sel × String)) (selector : Sel) :
    firstReaction l selector =
      (l.find? fun p => selMatch p.1 selector).map Prod.snd := by
  induction l with
  | nil => rfl
  | cons hd tl ih =>
      obtain ⟨s, c⟩ := hd
      by_cases h : selMatch s selector
      · have hf : List.find? (fun p => selMatch p.1 selector) ((s, c) :: tl) = some (s, c) :=
          List.find?_cons_of_pos _ h
        rw [firstReaction, if_pos h, hf]
        rfl
      · have hf : List.find? (fun p => selMatch p.1 selector) ((s, c) :: tl) =
            List.find? (fun p => selMatch p.1 selector) tl :=
          List.find?_cons_of_neg _ (by simpa using h)
        rw [firstReaction, if_neg h, hf, ih]

/-- C1 (amended): for every registered reaction table and observed event,
observe_event returns the action of the first registered pair, in
registration order, whose selector satisfies
(regSelector[0] == selector[0] OR regSelector[1] ∈ selector[1]) AND
regSelector[2:] == selector[2:] — the containment runs in the opposite
direction to the claim: the registered field 1 must occur inside the
observed field 1 — and returns nothing when no registered selector
satisfies that condition. -/
theorem observe_event_first_match (reactions : Reactions) (module target : String)
    (selector : Sel) :
    observe_event reactions module target selector =
      ((dictGetD ((dictGet reactions module).getD []) target []).find? fun p =>
        (p.1.f0 == selector.f0 || isSubstr p.1.f1 selector.f1)
          && p.1.rest == selector.rest).map Prod.snd := by
  rw [observe_event, firstReaction_eq_find]
  rfl

/-- C1 counterexample: with one registered pair whose selector is
(1, "ab", ()) and the observed event (2, "a", ()), the match predicate the
claim states holds (field 0 differs but "a" occurs inside "ab"), yet
observe_event finds no reaction, because the code tests whether the
registered field 1 occurs inside the observed field 1. -/
theorem observe_event_claim_counterexample :
    specSelMatch ⟨.int 1, ['a', 'b'], []⟩ ⟨.int 2, ['a'], []⟩ = true ∧
    observe_event [("m", [("t", [(⟨.int 1, ['a', 'b'], []⟩, "cmd")])])] "m" "t"
      ⟨.int 2, ['a'], []⟩ = none := by
  exact ⟨by decide, by decide⟩

/-! ### C2: the ratelimit directive raises AttributeError -/

theorem run_reaches_ratelimit {actions : List (String × List Step)}
    {registry : List String} {now : ℚ} {fuel : Nat} {action : String}
    {rl : List (String × ℚ)} {secs : ℚ} {rest : List Step}
    (h : dictGet actions action = some (Step.directive "ratelimit" [secs] :: rest)) :
    run actions registry now (fuel + 1) action rl = .error .attributeError := by
  rw [run, h]
  simp [run.go, timeDotTime]

/-- C2: the code cannot rate limit at all.  Line 13 of brainstem.py shadows
the time module with the datetime.time class, so the first invocation of
any action that reaches a ("ratelimit", s) directive raises AttributeError
at the now = time.time() call (line 160) instead of comparing elapsed time
and continuing or aborting: here the action named a, whose sequence is the
directive followed by one dispatch step, errors on its very first run with
a fresh ratelimit table. -/
theorem run_ratelimit_attribute_error :
    run [("a", [Step.directive "ratelimit" [10],
        Step.dispatch "module" "target" "sel" "off" []])] ["module"] 100 5 "a" []
      = .error .attributeError := by
  exact run_reaches_ratelimit (by rfl)

/-! ### C7: the counter series creation time -/

/-- C7 (amended): the counter family returned by collect carries a series
creation timestamp equal to the instant the LutronClient object was
constructed (self.clientstarttime, line 298), one shared value for every
target and connection, not the instant the target's connection was
opened. -/
theorem collect_created_client_start (t0 : ℚ) (cf cf' : Directory)
    (lips lips' : LipserviceS) :
    (collect (lutronClientInit t0) cf lips).created = t0 ∧
    (collect (lutronClientInit t0) cf lips).created =
      (collect (lutronClientInit t0) cf' lips').created := by
  exact ⟨rfl, rfl⟩

/-- C7 counterexample: a client constructed at wall-clock instant 5 whose
connection for the scraped target was opened at instant 9 reports a
counter family whose created timestamp is 5, not the connection-open
instant 9 the claim requires. -/
theorem collect_created_counterexample :
    (collect (lutronClientInit 5) ⟨[], [], [], []⟩ ⟨9, ⟨[], [], []⟩⟩).created = 5 ∧
    (⟨9, ⟨[], [], []⟩⟩ : LipserviceS).openedAt = 9 ∧ (5 : ℚ) ≠ 9 := by
  refine ⟨rfl, rfl, by norm_num⟩

/-! ### C4: DEVICE press counting -/

/-- C4: a decoded DEVICE frame with action PRESS (3) on the Bridge id 1
increments exactly the scene counter keyed by the component by one and
leaves every device counter and the level table unchanged; on any other
address it increments exactly the device counter keyed (address, component)
and leaves every scene counter and the level table unchanged; DEVICE
frames with action RELEASE (4), HOLD (5) or DOUBLETAP (6) change no state
at all. -/
theorem device_press_counter_effects (s : LipState) (b c : Int) (d : ℚ) :
    (pyTrunc d = 3 → b = 1 →
      dictGet (pollStep s ⟨"DEVICE", b, c, d⟩).scene c = some (dictGetD s.scene c 0 + 1) ∧
      (∀ k, k ≠ c → dictGet (pollStep s ⟨"DEVICE", b, c, d⟩).scene k = dictGet s.scene k) ∧
      (pollStep s ⟨"DEVICE", b, c, d⟩).device = s.device ∧
      (pollStep s ⟨"DEVICE", b, c, d⟩).levels = s.levels) ∧
    (pyTrunc d = 3 → b ≠ 1 →
      dictGet (pollStep s ⟨"DEVICE", b, c, d⟩).device (b, c)
          = some (dictGetD s.device (b, c) 0 + 1) ∧
      (∀ k, k ≠ (b, c) → dictGet (pollStep s ⟨"DEVICE", b, c, d⟩).device k
          = dictGet s.device k) ∧
      (pollStep s ⟨"DEVICE", b, c, d⟩).scene = s.scene ∧
      (pollStep s ⟨"DEVICE", b, c, d⟩).levels = s.levels) ∧
    (pyTrunc d = 4 ∨ pyTrunc d = 5 ∨ pyTrunc d = 6 →
      pollStep s ⟨"DEVICE", b, c, d⟩ = s) := by
  refine ⟨?_, ?_, ?_⟩
  · intro h3 hb
    subst hb
    have hps : pollStep s ⟨"DEVICE", 1, c, d⟩
        = { s with scene := incrementCounter s.scene c } := by
      simp [pollStep, h3]
    rw [hps]
    exact ⟨dictGet_dictInsert_self _ _ _,
           fun k hk => dictGet_dictInsert_ne _ _ _ _ hk, rfl, rfl⟩
  · intro h3 hb
    have hps : pollStep s ⟨"DEVICE", b, c, d⟩
        = { s with device := incrementCounter s.device (b, c) } := by
      simp [pollStep, h3, hb]
    rw [hps]
    exact ⟨dictGet_dictInsert_self _ _ _,
           fun k hk => dictGet_dictInsert_ne _ _ _ _ hk, rfl, rfl⟩
  · intro h
    rcases h with h | h | h <;> simp [pollStep, h]

/-- Witness for C4 at the spec scenario: Bridge id 1, component 7, PRESS
on the empty state gives scene count 1 and no device counts; a PRESS on
device 28 component 2 counts the device pair; RELEASE changes nothing. -/
theorem device_press_counter_effects_witness :
    (dictGet (pollStep ⟨[], [], []⟩ ⟨"DEVICE", 1, 7, 3⟩).scene 7 = some 1 ∧
      (pollStep ⟨[], [], []⟩ ⟨"DEVICE", 1, 7, 3⟩).device = []) ∧
    (dictGet (pollStep ⟨[], [], []⟩ ⟨"DEVICE", 28, 2, 3⟩).device (28, 2) = some 1 ∧
      (pollStep ⟨[], [], []⟩ ⟨"DEVICE", 28, 2, 3⟩).scene = []) ∧
    pollStep ⟨[], [], []⟩ ⟨"DEVICE", 28, 2, 4⟩ = ⟨[], [], []⟩ := by
  have h1 := (device_press_counter_effects ⟨[], [], []⟩ 1 7 3).1 (by decide) rfl
  have h2 := (device_press_counter_effects ⟨[], [], []⟩ 28 2 3).2.1 (by decide) (by decide)
  have h3 := (device_press_counter_effects ⟨[], [], []⟩ 28 2 4).2.2 (Or.inl (by decide))
  exact ⟨⟨h1.1, h1.2.2.1⟩, ⟨h2.1, h2.2.2.1⟩, h3⟩

/-! ### C5: OUTPUT / SHADEGRP level effects -/

theorem pollStep_out_set (s : LipState) (mode : String) (b : Int) (d : ℚ)
    (hm : mode = "OUTPUT" ∨ mode = "SHADEGRP") :
    pollStep s ⟨mode, b, 1, d⟩ = { s with levels := dictInsert s.levels b (some d) } := by
  rcases hm with rfl | rfl <;> simp [pollStep]

theorem pollStep_out_ignored (s : LipState) (mode : String) (b c : Int) (d : ℚ)
    (hm : mode = "OUTPUT" ∨ mode = "SHADEGRP")
    (hc : c = 2 ∨ c = 3 ∨ c = 4 ∨ c = 29 ∨ c = 30) :
    pollStep s ⟨mode, b, c, d⟩ = s := by
  rcases hm with rfl | rfl <;> rcases hc with rfl | rfl | rfl | rfl | rfl <;>
    simp [pollStep]

/-- C5: an OUTPUT or SHADEGRP frame with action SET (1) overwrites the
output level stored for the frame address with the frame value and leaves
every other level and both counter maps unchanged; the actions RAISING (2),
LOWERING (3), STOP (4) and the two unlabeled codes 29 and 30 leave the
whole state unchanged. -/
theorem output_set_level_effects (s : LipState) (mode : String) (b c : Int) (d : ℚ)
    (hm : mode = "OUTPUT" ∨ mode = "SHADEGRP") :
    (c = 1 →
      dictGet (pollStep s ⟨mode, b, c, d⟩).levels b = some (some d) ∧
      (∀ k, k ≠ b → dictGet (pollStep s ⟨mode, b, c, d⟩).levels k = dictGet s.levels k) ∧
      (pollStep s ⟨mode, b, c, d⟩).scene = s.scene ∧
      (pollStep s ⟨mode, b, c, d⟩).device = s.device) ∧
    (c = 2 ∨ c = 3 ∨ c = 4 ∨ c = 29 ∨ c = 30 →
      pollStep s ⟨mode, b, c, d⟩ = s) := by
  constructor
  · intro hc
    subst hc
    rw [pollStep_out_set s mode b d hm]
    exact ⟨dictGet_dictInsert_self _ _ _,
           fun k hk => dictGet_dictInsert_ne _ _ _ _ hk, rfl, rfl⟩
  · intro hc
    exact pollStep_out_ignored s mode b c d hm hc

/-- Witness for C5 at the spec scenario: OUTPUT,23,RAISING leaves the
state unchanged and a following OUTPUT,23,SET,55.0 leaves level 55. -/
theorem output_set_level_effects_witness :
    pollStep ⟨[], [], [(23, none)]⟩ ⟨"OUTPUT", 23, 2, 0⟩ = ⟨[], [], [(23, none)]⟩ ∧
    dictGet (pollStep ⟨[], [], [(23, none)]⟩ ⟨"OUTPUT", 23, 1, 55⟩).levels 23
      = some (some 55) := by
  have h1 := (output_set_level_effects ⟨[], [], [(23, none)]⟩ "OUTPUT" 23 2 0
    (Or.inl rfl)).2 (Or.inl rfl)
  have h2 := (output_set_level_effects ⟨[], [], [(23, none)]⟩ "OUTPUT" 23 1 55
    (Or.inl rfl)).1 rfl
  exact ⟨h1, h2.1⟩

/-! ### C6: connection state after open -/

/-- C6 (amended): a refused connection leaves either client Closed without
raising, and in the Illumination client a failed read during the login or
monitoring-enable exchange also leaves state Closed without raising; but
in the LIP client the three login-exchange read results are ignored, so
whenever the connect and the two writes succeed open returns with state
Opened even if every read failed, and in either client a failed
write-and-drain raises out of open leaving state Opening. -/
theorem open_failure_states (env : OpenEnv) :
    (env.connectOk = false →
      lipOpen env = ⟨.Closed, false⟩ ∧ illipOpen env = ⟨.Closed, false⟩) ∧
    (env.connectOk = true → (∀ i, env.writeOk i = true) →
      lipOpen env = ⟨.Opened, false⟩) ∧
    (env.connectOk = true → (∀ i, env.writeOk i = true) →
      (∃ i, i < 6 ∧ env.readOk i = false) → illipOpen env = ⟨.Closed, false⟩) ∧
    (∀ i, i < 2 → env.connectOk = true → (∀ j, j < i → env.writeOk j = true) →
      env.writeOk i = false → lipOpen env = ⟨.Opening, true⟩) ∧
    (∀ i, i < 5 → env.connectOk = true → (∀ j, j ≤ i → env.readOk j = true) →
      (∀ j, j < i → env.writeOk j = true) →
      env.writeOk i = false → illipOpen env = ⟨.Opening, true⟩) := by
  refine ⟨?_, ?_, ?_, ?_, ?_⟩
  · intro h
    exact ⟨by simp [lipOpen, h], by simp [illipOpen, h]⟩
  · intro hc hw
    simp [lipOpen, hc, hw 0, hw 1]
  · rintro hc hw ⟨i, hi, hf⟩
    have hw0 := hw 0
    have hw1 := hw 1
    have hw2 := hw 2
    have hw3 := hw 3
    have hw4 := hw 4
    by_cases h0 : env.readOk 0 = true <;> by_cases h1 : env.readOk 1 = true <;>
      by_cases h2 : env.readOk 2 = true <;> by_cases h3 : env.readOk 3 = true <;>
      by_cases h4 : env.readOk 4 = true <;> by_cases h5 : env.readOk 5 = true <;>
      first
      | (simp_all [illipOpen]; done)
      | (exfalso; interval_cases i <;> simp_all)
  · intro i hi hc hw hwi
    interval_cases i
    · simp [lipOpen, hc, hwi]
    · have h0 := hw 0 (by omega)
      simp [lipOpen, hc, h0, hwi]
  · intro i hi hc hr hw hwi
    interval_cases i
    · have r0 := hr 0 (by omega)
      simp [illipOpen, hc, r0, hwi]
    · have r0 := hr 0 (by omega); have r1 := hr 1 (by omega)
      have w0 := hw 0 (by omega)
      simp [illipOpen, hc, r0, r1, w0, hwi]
    · have r0 := hr 0 (by omega); have r1 := hr 1 (by omega)
      have r2 := hr 2 (by omega)
      have w0 := hw 0 (by omega); have w1 := hw 1 (by omega)
      simp [illipOpen, hc, r0, r1, r2, w0, w1, hwi]
    · have r0 := hr 0 (by omega); have r1 := hr 1 (by omega)
      have r2 := hr 2 (by omega); have r3 := hr 3 (by omega)
      have w0 := hw 0 (by omega); have w1 := hw 1 (by omega)
      have w2 := hw 2 (by omega)
      simp [illipOpen, hc, r0, r1, r2, r3, w0, w1, w2, hwi]
    · have r0 := hr 0 (by omega); have r1 := hr 1 (by omega)
      have r2 := hr 2 (by omega); have r3 := hr 3 (by omega)
      have r4 := hr 4 (by omega)
      have w0 := hw 0 (by omega); have w1 := hw 1 (by omega)
      have w2 := hw 2 (by omega); have w3 := hw 3 (by omega)
      simp [illipOpen, hc, r0, r1, r2, r3, r4, w0, w1, w2, w3, hwi]

/-- Witness for C6: concrete environments exercising all five parts of the
amended statement, with write failures at both the first and a later write
of each client. -/
theorem open_failure_states_witness :
    lipOpen ⟨false, fun _ => true, fun _ => true⟩ = ⟨.Closed, false⟩ ∧
    lipOpen ⟨true, fun _ => false, fun _ => true⟩ = ⟨.Opened, false⟩ ∧
    illipOpen ⟨true, fun i => decide (i ≠ 3), fun _ => true⟩ = ⟨.Closed, false⟩ ∧
    lipOpen ⟨true, fun _ => true, fun _ => false⟩ = ⟨.Opening, true⟩ ∧
    lipOpen ⟨true, fun _ => true, fun j => decide (j ≠ 1)⟩ = ⟨.Opening, true⟩ ∧
    illipOpen ⟨true, fun _ => true, fun j => decide (j ≠ 0)⟩ = ⟨.Opening, true⟩ ∧
    illipOpen ⟨true, fun _ => true, fun j => decide (j ≠ 2)⟩ = ⟨.Opening, true⟩ := by
  refine ⟨((open_failure_states _).1 rfl).1,
          (open_failure_states _).2.1 rfl (fun _ => rfl),
          (open_failure_states _).2.2.1 rfl (fun _ => rfl) ⟨3, by decide, by decide⟩,
          (open_failure_states _).2.2.2.1 0 (by decide) rfl (fun j hj => by omega) rfl,
          (open_failure_states _).2.2.2.1 1 (by decide) rfl
            (fun j hj => by interval_cases j; rfl) (by decide),
          (open_failure_states _).2.2.2.2 0 (by decide) rfl (fun j hj => rfl)
            (fun j hj => by omega) rfl,
          (open_failure_states _).2.2.2.2 2 (by decide) rfl (fun j hj => rfl)
            (fun j hj => by interval_cases j <;> rfl) (by decide)⟩

/-- C6 counterexample: the connection succeeds but the peer disconnects
during the login exchange (every read fails, the two credential writes
still succeed): LipServer.open returns normally with state Opened, not
Closed as the claim requires. -/
theorem open_claim_counterexample :
    (lipOpen ⟨true, fun _ => false, fun _ => true⟩).state = ConnState.Opened ∧
    (lipOpen ⟨true, fun _ => false, fun _ => true⟩).raised = false ∧
    ConnState.Opened ≠ ConnState.Closed := by
  exact ⟨rfl, rfl, by decide⟩

/-! ### C9: the timer scheduler -/

/-- C9: when the date has not rolled over and the earliest heap entry is
due in the future, process_timers fires nothing and suspends for exactly
the seconds remaining until that instant; when it is due now or in the
past it is popped and fired and the loop reschedules immediately; and when
the wall-clock date has advanced past the reference date the rollover
prelude fires every entry still pending in the heap and rebuilds the heap
with the full timer set instantiated on the new day (timers already fired
the prior day included). -/
theorem process_timers_behavior (s : TimersState) (now : Nat) :
    ((¬ s.today < now / daySecs) → ∀ t a rest, s.heap = (t, a) :: rest → now < t →
      process_timers s now = ([], .sleep ((t : Int) - (now : Int)), s)) ∧
    ((¬ s.today < now / daySecs) → ∀ t a rest, s.heap = (t, a) :: rest → t ≤ now →
      process_timers s now = ([a], .again, { s with heap := rest })) ∧
    (s.today < now / daySecs →
      (rollover s now).1 = s.heap.map Prod.snd ∧
      (rollover s now).2.today = now / daySecs ∧
      (rollover s now).2.timers = s.timers ∧
      (rollover s now).2.heap =
        sortByTime (s.timers.map fun p => ((now / daySecs) * daySecs + p.1, p.2))) := by
  refine ⟨?_, ?_, ?_⟩
  · intro hroll t a rest hheap hfut
    have hr : rollover s now = ([], s) := by rw [rollover, if_neg hroll]
    rw [process_timers, hr]
    simp only [hheap]
    rw [if_neg (by omega)]
  · intro hroll t a rest hheap hdue
    have hr : rollover s now = ([], s) := by rw [rollover, if_neg hroll]
    rw [process_timers, hr]
    simp only [hheap]
    rw [if_pos (by omega)]
    rfl
  · intro hroll
    rw [rollover, if_pos hroll]
    exact ⟨rfl, rfl, rfl, rfl⟩

/-- Witness for C9, at the spec example: a timer due at 04:00:00 (second
14400 of day 0) observed at 03:59:59 suspends for exactly 1 second; at
04:00:01 it fires immediately; and on the first call of the next day the
pending timer is fired and the heap holds the full set for the new day. -/
theorem process_timers_behavior_witness :
    process_timers ⟨[(14400, "pump_off")], 0, [(14400, "pump_off")]⟩ 14399
      = ([], .sleep ((14400 : Int) - (14399 : Int)),
         ⟨[(14400, "pump_off")], 0, [(14400, "pump_off")]⟩) ∧
    process_timers ⟨[(14400, "pump_off")], 0, [(14400, "pump_off")]⟩ 14401
      = (["pump_off"], .again, ⟨[(14400, "pump_off")], 0, []⟩) ∧
    (rollover ⟨[(14400, "pump_off")], 0, [(50000, "late")]⟩ 90000).1 = ["late"] ∧
    (rollover ⟨[(14400, "pump_off")], 0, [(50000, "late")]⟩ 90000).2.heap
      = sortByTime ([(14400, "pump_off")].map fun p => ((90000 / daySecs) * daySecs + p.1, p.2)) := by
  have h1 := (process_timers_behavior ⟨[(14400, "pump_off")], 0, [(14400, "pump_off")]⟩
    14399).1 (by decide) 14400 "pump_off" [] rfl (by decide)
  have h2 := (process_timers_behavior ⟨[(14400, "pump_off")], 0, [(14400, "pump_off")]⟩
    14401).2.1 (by decide) 14400 "pump_off" [] rfl (by decide)
  have h3 := (process_timers_behavior ⟨[(14400, "pump_off")], 0, [(50000, "late")]⟩
    90000).2.2 (by decide)
  exact ⟨h1, h2, h3.1, h3.2.2.2⟩

/-! ### C10: the colon-grouped address encoding round trip -/

theorem digitChar_val : ∀ d, d < 10 → (Nat.digitChar d).toNat - '0'.toNat = d := by
  decide

theorem digitChar_ne_colon : ∀ d, d < 10 → Nat.digitChar d ≠ ':' := by
  decide

theorem decDigits_ne_colon (n : Nat) : ∀ c ∈ decDigits n, c ≠ ':' := by
  induction n using Nat.strong_induction_on with
  | _ n ih =>
      rw [decDigits]
      split
      · next h =>
          intro c hc
          simp only [List.mem_singleton] at hc
          subst hc
          exact digitChar_ne_colon n h
      · next h =>
          intro c hc
          rcases List.mem_append.mp hc with h1 | h1
          · exact ih (n / 10) (Nat.div_lt_self (by omega) (by omega)) c h1
          · simp only [List.mem_singleton] at h1
            subst h1
            exact digitChar_ne_colon (n % 10) (Nat.mod_lt _ (by omega))

theorem decodeDec_decDigits (n : Nat) : decodeDec (decDigits n) = n := by
  induction n using Nat.strong_induction_on with
  | _ n ih =>
      rw [decDigits]
      split
      · next h =>
          show 0 * 10 + ((Nat.digitChar n).toNat - '0'.toNat) = n
          rw [digitChar_val n h]
          omega
      · next h =>
          have happ : decodeDec (decDigits (n / 10) ++ [Nat.digitChar (n % 10)])
              = decodeDec (decDigits (n / 10)) * 10
                + ((Nat.digitChar (n % 10)).toNat - '0'.toNat) := by
            simp [decodeDec, List.foldl_append]
          rw [happ, ih (n / 10) (Nat.div_lt_self (by omega) (by omega)),
              digitChar_val (n % 10) (Nat.mod_lt _ (by omega))]
          omega

theorem decodeDec_cons_zero (s : List Char) : decodeDec ('0' :: s) = decodeDec s := by
  have h0 : (0 * 10 + ('0'.toNat - '0'.toNat)) = 0 := by decide
  show List.foldl _ (0 * 10 + ('0'.toNat - '0'.toNat)) s = decodeDec s
  rw [h0]
  rfl

theorem pairChunks_flatten : ∀ l : List Char, (pairChunks l).flatten = l
  | [] => rfl
  | [_] => by simp [pairChunks]
  | a :: b :: rest => by
      show ([a, b] :: pairChunks rest).flatten = a :: b :: rest
      rw [List.flatten_cons, pairChunks_flatten rest]
      rfl

theorem stripColons_colonJoin (gs : List (List Char)) (h : ∀ c ∈ gs.flatten, c ≠ ':') :
    stripColons (colonJoin gs) = gs.flatten := by
  induction gs with
  | nil => rfl
  | cons g tail ih =>
      cases tail with
      | nil =>
          simp only [colonJoin, List.flatten_cons, List.flatten_nil, List.append_nil]
          rw [stripColons, List.filter_eq_self]
          intro a ha
          have ham : a ∈ (g :: ([] : List (List Char))).flatten := by
            simpa using ha
          simpa using h a ham
      | cons g2 rest =>
          have hg : ∀ a ∈ g, a ≠ ':' := by
            intro a ha
            refine h a ?_
            rw [List.flatten_cons]
            exact List.mem_append.mpr (Or.inl ha)
          have htail : ∀ c ∈ (g2 :: rest).flatten, c ≠ ':' := by
            intro c hc
            refine h c ?_
            rw [List.flatten_cons]
            exact List.mem_append.mpr (Or.inr hc)
          have hfg : g.filter (fun c => c ≠ ':') = g := by
            rw [List.filter_eq_self]
            intro a ha
            simpa using hg a ha
          show stripColons (g ++ ':' :: colonJoin (g2 :: rest)) = (g :: g2 :: rest).flatten
          rw [stripColons, List.filter_append, List.filter_cons]
          have hcol : (decide (¬ (':' : Char) = ':')) = false := by decide
          simp only [hcol, Bool.false_eq_true, if_false]
          have hihr := ih htail
          rw [stripColons] at hihr
          rw [hfg, hihr]
          simp [List.flatten_cons]

/-- C10: for every nonnegative integration id, stripping the colons from
the wire encoding produced by to_illumination_address and converting the
remaining decimal digits back to an integer (the read path inverse of
read_raw, line 209) recovers the original id. -/
theorem illumination_address_round_trip (n : Nat) :
    decodeDec (stripColons (to_illumination_address n)) = n := by
  have hs : ∀ c ∈ decDigits n, c ≠ ':' := decDigits_ne_colon n
  by_cases hlen : (decDigits n).length % 2 = 1
  · have h1 : to_illumination_address n = colonJoin (pairChunks ('0' :: decDigits n)) := by
      show colonJoin (pairChunks (if (decDigits n).length % 2 = 1
        then '0' :: decDigits n else decDigits n)) = _
      rw [if_pos hlen]
    have hc : ∀ c ∈ ('0' :: decDigits n), c ≠ ':' := by
      intro c hc
      rcases List.mem_cons.mp hc with rfl | hmem
      · decide
      · exact hs c hmem
    rw [h1, stripColons_colonJoin _ (by rw [pairChunks_flatten]; exact hc),
        pairChunks_flatten, decodeDec_cons_zero, decodeDec_decDigits]
  · have h1 : to_illumination_address n = colonJoin (pairChunks (decDigits n)) := by
      show colonJoin (pairChunks (if (decDigits n).length % 2 = 1
        then '0' :: decDigits n else decDigits n)) = _
      rw [if_neg hlen]
    rw [h1, stripColons_colonJoin _ (by rw [pairChunks_flatten]; exact hs),
        pairChunks_flatten, decodeDec_decDigits]

/-! ### C8: read-until chunk invariance, literal terminator side -/

theorem isPrefixOf_length_le {t l : List Char} (h : t.isPrefixOf l = true) :
    t.length ≤ l.length := by
  induction t generalizing l with
  | nil => simp
  | cons x xs ih =>
      cases l with
      | nil => simp [List.isPrefixOf] at h
      | cons y ys =>
          simp only [List.isPrefixOf, Bool.and_eq_true] at h
          simpa using Nat.succ_le_succ (ih h.2)

theorem isPrefixOf_append_right {t b : List Char} (e : List Char)
    (h : t.isPrefixOf b = true) : t.isPrefixOf (b ++ e) = true := by
  induction t generalizing b with
  | nil => simp [List.isPrefixOf]
  | cons x xs ih =>
      cases b with
      | nil => simp [List.isPrefixOf] at h
      | cons y ys =>
          simp only [List.isPrefixOf, Bool.and_eq_true] at h
          simp only [List.cons_append, List.isPrefixOf, Bool.and_eq_true]
          exact ⟨h.1, ih h.2⟩

theorem isPrefixOf_of_append {t b e : List Char} (h : t.isPrefixOf (b ++ e) = true)
    (hle : t.length ≤ b.length) : t.isPrefixOf b = true := by
  induction t generalizing b with
  | nil => simp [List.isPrefixOf]
  | cons x xs ih =>
      cases b with
      | nil => simp at hle
      | cons y ys =>
          simp only [List.cons_append, List.isPrefixOf, Bool.and_eq_true] at h
          simp only [List.isPrefixOf, Bool.and_eq_true]
          exact ⟨h.1, ih h.2 (by simpa using hle)⟩

theorem findSub_bound {t b : List Char} {i : Nat} (h : findSub t b = some i) :
    i + t.length ≤ b.length ∧ t.isPrefixOf (b.drop i) = true := by
  induction b generalizing i with
  | nil =>
      rw [findSub] at h
      split at h
      · next hp =>
          cases h
          exact ⟨by simpa using isPrefixOf_length_le hp, by simpa using hp⟩
      · cases h
  | cons y ys ih =>
      rw [findSub] at h
      split at h
      · next hp =>
          cases h
          exact ⟨by simpa using isPrefixOf_length_le hp, by simpa using hp⟩
      · next hp =>
          cases hj : findSub t ys with
          | none => rw [hj] at h; cases h
          | some j =>
              rw [hj] at h
              cases h
              obtain ⟨hb, hpfx⟩ := ih hj
              exact ⟨by simp only [List.length_cons]; omega, by simpa using hpfx⟩

theorem findSub_append {t b : List Char} {i : Nat} (e : List Char)
    (h : findSub t b = some i) : findSub t (b ++ e) = some i := by
  induction b generalizing i with
  | nil =>
      rw [findSub] at h
      split at h
      · next hp =>
          cases h
          have ht : t = [] := by
            cases t with
            | nil => rfl
            | cons a as => simp [List.isPrefixOf] at hp
          subst ht
          cases e with
          | nil => rfl
          | cons c cs => rw [List.nil_append, findSub, if_pos (by simp [List.isPrefixOf])]
      · cases h
  | cons y ys ih =>
      rw [findSub] at h
      split at h
      · next hp =>
          cases h
          rw [List.cons_append, findSub, if_pos (by simpa using isPrefixOf_append_right e (by simpa using hp))]
      · next hp =>
          cases hj : findSub t ys with
          | none => rw [hj] at h; cases h
          | some j =>
              rw [hj] at h
              cases h
              have hys := ih hj
              rw [List.cons_append, findSub]
              split
              · next hp2 =>
                  exfalso
                  have hb := (findSub_bound hj).1
                  have hlen := isPrefixOf_length_le (by simpa using hp2)
                  have : t.isPrefixOf (y :: ys) = true := by
                    by_cases hc : t.length ≤ (y :: ys).length
                    · exact isPrefixOf_of_append (by simpa using hp2) hc
                    · exfalso
                      simp only [List.length_cons] at hc
                      omega
                  exact hp this
              · rw [hys]
                rfl

theorem read_until_bytes_nil (term buf : List Char) :
    read_until_bytes term [] buf =
      match findSub term buf with
      | some i => some (buf.take (i + term.length))
      | none => none := rfl

theorem read_until_bytes_cons (term : List Char) (c : List Char)
    (rest : List (List Char)) (buf : List Char) :
    read_until_bytes term (c :: rest) buf =
      match findSub term buf with
      | some i => some (buf.take (i + term.length))
      | none =>
          if c.isEmpty then none
          else read_until_bytes term rest (buf ++ c) := rfl

theorem read_until_bytes_eq (term : List Char) (buf : List Char)
    (chunks : List (List Char)) (h : ∀ c ∈ chunks, c ≠ []) :
    read_until_bytes term chunks buf =
      (findSub term (buf ++ chunks.flatten)).map
        (fun i => (buf ++ chunks.flatten).take (i + term.length)) := by
  induction chunks generalizing buf with
  | nil =>
      rw [read_until_bytes_nil]
      simp only [List.flatten_nil, List.append_nil]
      cases hf : findSub term buf <;> simp [hf]
  | cons c rest ih =>
      rw [read_until_bytes_cons]
      cases hf : findSub term buf with
      | some i =>
          have hb := (findSub_bound hf).1
          have h2 : findSub term (buf ++ (c :: rest).flatten) = some i :=
            findSub_append _ hf
          rw [h2]
          simp only [hf, Option.map_some']
          rw [List.take_append_of_le_length hb]
      | none =>
          have hc : c ≠ [] := h c (List.mem_cons_self _ _)
          have hce : ¬ c.isEmpty = true := by
            cases c with
            | nil => exact absurd rfl hc
            | cons a as => simp
          simp only [hf, hce, if_false]
          have := ih (buf ++ c) (fun d hd => h d (List.mem_cons_of_mem _ hd))
          rw [this]
          simp [List.append_assoc]

theorem read_until_bytes_disconnect (term : List Char) (buf : List Char)
    (pre rest : List (List Char)) (hp : ∀ c ∈ pre, c ≠ [])
    (hn : findSub term (buf ++ pre.flatten) = none) :
    read_until_bytes term (pre ++ [] :: rest) buf = none := by
  induction pre generalizing buf with
  | nil =>
      rw [List.nil_append, read_until_bytes_cons]
      have hb : findSub term buf = none := by simpa using hn
      simp [hb]
  | cons c pre' ih =>
      have hb : findSub term buf = none := by
        cases hfb : findSub term buf with
        | none => rfl
        | some i =>
            exfalso
            have := findSub_append ((c :: pre').flatten) hfb
            rw [hn] at this
            cases this
      have hc : c ≠ [] := hp c (List.mem_cons_self _ _)
      have hce : ¬ c.isEmpty = true := by
        cases c with
        | nil => exact absurd rfl hc
        | cons a as => simp
      rw [List.cons_append, read_until_bytes_cons]
      simp only [hb, hce, if_false]
      refine ih (buf ++ c) (fun d hd => hp d (List.mem_cons_of_mem _ hd)) ?_
      rw [List.append_assoc]
      simpa [List.flatten_cons, List.append_assoc] using hn

/-! ### C8: read-until chunk invariance, frame-pattern side -/

theorem pCh_some {ch : Char} {l r : List Char} (h : pCh ch l = some r) :
    l = ch :: r := by
  cases l with
  | nil => cases h
  | cons c t =>
      rw [pCh] at h
      split at h
      · next he => cases h; rw [he]
      · cases h

theorem pCh_build (ch : Char) (t : List Char) : pCh ch (ch :: t) = some t := by
  simp [pCh]

theorem takeWhile_all_append {p : Char → Bool} :
    ∀ (g : List Char) (b : Char) (t : List Char), (∀ x ∈ g, p x = true) → p b = false →
      (g ++ b :: t).takeWhile p = g ∧ (g ++ b :: t).dropWhile p = b :: t := by
  intro g
  induction g with
  | nil =>
      intro b t _ hb
      simp [List.takeWhile_cons, List.dropWhile_cons, hb]
  | cons x xs ih =>
      intro b t hall hb
      have hx : p x = true := hall x (List.mem_cons_self _ _)
      have := ih b t (fun y hy => hall y (List.mem_cons_of_mem _ hy)) hb
      simp [List.takeWhile_cons, List.dropWhile_cons, hx, this.1, this.2]

theorem pCls_some {p : Char → Bool} {l g r : List Char} (h : pCls p l = some (g, r)) :
    g ≠ [] ∧ (∀ x ∈ g, p x = true) ∧ l = g ++ r := by
  rw [pCls] at h
  split at h
  · cases h
  · next hne =>
      cases h
      refine ⟨by simpa [List.isEmpty_iff] using hne,
              fun x hx => List.mem_takeWhile_imp hx, ?_⟩
      exact (List.takeWhile_append_dropWhile p l).symm

theorem pCls_build {p : Char → Bool} (g : List Char) (b : Char) (t : List Char)
    (hne : g ≠ []) (hall : ∀ x ∈ g, p x = true) (hb : p b = false) :
    pCls p (g ++ b :: t) = some (g, b :: t) := by
  obtain ⟨h1, h2⟩ := takeWhile_all_append g b t hall hb
  rw [pCls, h1, h2]
  simp [List.isEmpty_iff, hne]

theorem matchRespAt_inv {l c r : List Char} (h : matchRespAt l = some (c, r)) :
    ∃ g1 g2 g3 g4,
      c = '~' :: g1 ++ ',' :: g2 ++ ',' :: g3 ++ ',' :: g4 ++ '\r' :: '\n' :: [] ∧
      l = c ++ r ∧
      (g1 ≠ [] ∧ ∀ x ∈ g1, isUpperAZ x = true) ∧
      (g2 ≠ [] ∧ ∀ x ∈ g2, isDigDot x = true) ∧
      (g3 ≠ [] ∧ ∀ x ∈ g3, isDigDot x = true) ∧
      (g4 ≠ [] ∧ ∀ x ∈ g4, isDigDot x = true) := by
  unfold matchRespAt at h
  split at h
  · cases h
  next r0 h0 =>
  split at h
  · cases h
  next g1 r1 h1 =>
  split at h
  · cases h
  next r2 h2 =>
  split at h
  · cases h
  next g2 r3 h3 =>
  split at h
  · cases h
  next r4 h4 =>
  split at h
  · cases h
  next g3 r5 h5 =>
  split at h
  · cases h
  next r6 h6 =>
  split at h
  · cases h
  next g4 r7 h7 =>
  split at h
  · cases h
  next r8 h8 =>
  split at h
  · cases h
  next r9 h9 =>
  simp only [Option.some.injEq, Prod.mk.injEq] at h
  obtain ⟨hc, hr⟩ := h
  subst hc
  subst hr
  obtain ⟨hg1, ha1, he1⟩ := pCls_some h1
  obtain ⟨hg2, ha2, he2⟩ := pCls_some h3
  obtain ⟨hg3, ha3, he3⟩ := pCls_some h5
  obtain ⟨hg4, ha4, he4⟩ := pCls_some h7
  refine ⟨g1, g2, g3, g4, rfl, ?_, ⟨hg1, ha1⟩, ⟨hg2, ha2⟩, ⟨hg3, ha3⟩, ⟨hg4, ha4⟩⟩
  rw [pCh_some h0, he1, pCh_some h2, he2, pCh_some h4, he3, pCh_some h6, he4,
      pCh_some h8, pCh_some h9]
  simp [List.append_assoc]

theorem matchRespAt_build (g1 g2 g3 g4 x : List Char)
    (hg1 : g1 ≠ []) (ha1 : ∀ y ∈ g1, isUpperAZ y = true)
    (hg2 : g2 ≠ []) (ha2 : ∀ y ∈ g2, isDigDot y = true)
    (hg3 : g3 ≠ []) (ha3 : ∀ y ∈ g3, isDigDot y = true)
    (hg4 : g4 ≠ []) (ha4 : ∀ y ∈ g4, isDigDot y = true) :
    matchRespAt (('~' :: g1 ++ ',' :: g2 ++ ',' :: g3 ++ ',' :: g4 ++ '\r' :: '\n' :: []) ++ x)
      = some ('~' :: g1 ++ ',' :: g2 ++ ',' :: g3 ++ ',' :: g4 ++ '\r' :: '\n' :: [], x) := by
  have hshape : ('~' :: g1 ++ ',' :: g2 ++ ',' :: g3 ++ ',' :: g4 ++ '\r' :: '\n' :: []) ++ x
      = '~' :: (g1 ++ ',' :: (g2 ++ ',' :: (g3 ++ ',' :: (g4 ++ '\r' :: '\n' :: x)))) := by
    simp [List.append_assoc]
  have e0 : pCh '~' ('~' :: (g1 ++ ',' :: (g2 ++ ',' :: (g3 ++ ',' :: (g4 ++ '\r' :: '\n' :: x)))))
      = some (g1 ++ ',' :: (g2 ++ ',' :: (g3 ++ ',' :: (g4 ++ '\r' :: '\n' :: x)))) :=
    pCh_build _ _
  have e1 : pCls isUpperAZ (g1 ++ ',' :: (g2 ++ ',' :: (g3 ++ ',' :: (g4 ++ '\r' :: '\n' :: x))))
      = some (g1, ',' :: (g2 ++ ',' :: (g3 ++ ',' :: (g4 ++ '\r' :: '\n' :: x)))) :=
    pCls_build _ _ _ hg1 ha1 (by decide)
  have e2 : pCh ',' (',' :: (g2 ++ ',' :: (g3 ++ ',' :: (g4 ++ '\r' :: '\n' :: x))))
      = some (g2 ++ ',' :: (g3 ++ ',' :: (g4 ++ '\r' :: '\n' :: x))) :=
    pCh_build _ _
  have e3 : pCls isDigDot (g2 ++ ',' :: (g3 ++ ',' :: (g4 ++ '\r' :: '\n' :: x)))
      = some (g2, ',' :: (g3 ++ ',' :: (g4 ++ '\r' :: '\n' :: x))) :=
    pCls_build _ _ _ hg2 ha2 (by decide)
  have e4 : pCh ',' (',' :: (g3 ++ ',' :: (g4 ++ '\r' :: '\n' :: x)))
      = some (g3 ++ ',' :: (g4 ++ '\r' :: '\n' :: x)) :=
    pCh_build _ _
  have e5 : pCls isDigDot (g3 ++ ',' :: (g4 ++ '\r' :: '\n' :: x))
      = some (g3, ',' :: (g4 ++ '\r' :: '\n' :: x)) :=
    pCls_build _ _ _ hg3 ha3 (by decide)
  have e6 : pCh ',' (',' :: (g4 ++ '\r' :: '\n' :: x))
      = some (g4 ++ '\r' :: '\n' :: x) :=
    pCh_build _ _
  have e7 : pCls isDigDot (g4 ++ '\r' :: '\n' :: x)
      = some (g4, '\r' :: '\n' :: x) :=
    pCls_build _ _ _ hg4 ha4 (by decide)
  have e8 : pCh '\r' ('\r' :: '\n' :: x) = some ('\n' :: x) := pCh_build _ _
  have e9 : pCh '\n' ('\n' :: x) = some x := pCh_build _ _
  rw [hshape]
  unfold matchRespAt
  simp only [e0, e1, e2, e3, e4, e5, e6, e7, e8, e9]

theorem matchRespAt_append {l c r : List Char} (e : List Char)
    (h : matchRespAt l = some (c, r)) : matchRespAt (l ++ e) = some (c, r ++ e) := by
  obtain ⟨g1, g2, g3, g4, hc, hl, ⟨hg1, ha1⟩, ⟨hg2, ha2⟩, ⟨hg3, ha3⟩, ⟨hg4, ha4⟩⟩ :=
    matchRespAt_inv h
  subst hc
  rw [hl, List.append_assoc]
  exact matchRespAt_build g1 g2 g3 g4 (r ++ e) hg1 ha1 hg2 ha2 hg3 ha3 hg4 ha4

theorem matchRespAt_of_append {u e c r : List Char}
    (h : matchRespAt (u ++ e) = some (c, r)) (hle : c.length ≤ u.length) :
    matchRespAt u = some (c, u.drop c.length) := by
  obtain ⟨g1, g2, g3, g4, hc, hl, ⟨hg1, ha1⟩, ⟨hg2, ha2⟩, ⟨hg3, ha3⟩, ⟨hg4, ha4⟩⟩ :=
    matchRespAt_inv h
  have hu : u = c ++ u.drop c.length := by
    have htake : u.take c.length = c := by
      have h1 : (u ++ e).take c.length = u.take c.length :=
        List.take_append_of_le_length hle
      have h2 : (u ++ e).take c.length = c := by
        rw [hl]
        exact List.take_left' rfl
      rw [← h1, h2]
    conv_lhs => rw [← List.take_append_drop c.length u]
    rw [htake]
  conv_lhs => rw [hu]
  subst hc
  exact matchRespAt_build g1 g2 g3 g4 _ hg1 ha1 hg2 ha2 hg3 ha3 hg4 ha4

theorem respShape_no_tilde {g1 g2 g3 g4 : List Char}
    (ha1 : ∀ x ∈ g1, isUpperAZ x = true) (ha2 : ∀ x ∈ g2, isDigDot x = true)
    (ha3 : ∀ x ∈ g3, isDigDot x = true) (ha4 : ∀ x ∈ g4, isDigDot x = true) :
    ∀ x ∈ (g1 ++ ',' :: g2 ++ ',' :: g3 ++ ',' :: g4 ++ '\r' :: '\n' :: []), x ≠ '~' := by
  intro x hx he
  subst he
  have hm1 : ('~' : Char) ∉ g1 := fun hm => absurd (ha1 _ hm) (by decide)
  have hm2 : ('~' : Char) ∉ g2 := fun hm => absurd (ha2 _ hm) (by decide)
  have hm3 : ('~' : Char) ∉ g3 := fun hm => absurd (ha3 _ hm) (by decide)
  have hm4 : ('~' : Char) ∉ g4 := fun hm => absurd (ha4 _ hm) (by decide)
  have hc1 : ¬ ('~' : Char) = ',' := by decide
  have hc2 : ¬ ('~' : Char) = '\r' := by decide
  have hc3 : ¬ ('~' : Char) = '\n' := by decide
  simp only [List.mem_append, List.mem_cons, List.mem_singleton] at hx
  tauto

theorem searchResp_nil : searchResp [] = none := rfl

theorem searchResp_cons (x : Char) (t : List Char) :
    searchResp (x :: t) =
      match matchRespAt (x :: t) with
      | some (c, _) => some (0, c)
      | none => (searchResp t).map fun p => (p.1 + 1, p.2) := rfl

theorem searchResp_drop {l : List Char} {i : Nat} {c : List Char}
    (h : searchResp l = some (i, c)) :
    ∃ r, matchRespAt (l.drop i) = some (c, r) := by
  induction l generalizing i with
  | nil => rw [searchResp_nil] at h; cases h
  | cons x t ih =>
      rw [searchResp_cons] at h
      cases hm : matchRespAt (x :: t) with
      | some pr =>
          obtain ⟨cc, rr⟩ := pr
          simp only [hm, Option.some.injEq, Prod.mk.injEq] at h
          obtain ⟨hi, hc⟩ := h
          subst hi
          subst hc
          exact ⟨rr, hm⟩
      | none =>
          simp only [hm] at h
          cases hs : searchResp t with
          | none => rw [hs] at h; cases h
          | some p =>
              obtain ⟨j, cj⟩ := p
              rw [hs] at h
              simp only [Option.map_some', Option.some.injEq, Prod.mk.injEq] at h
              obtain ⟨hi, hc⟩ := h
              subst hi
              subst hc
              rw [List.drop_succ_cons]
              exact ih hs

theorem searchResp_append {l e : List Char} {i : Nat} {c : List Char}
    (h : searchResp l = some (i, c)) : searchResp (l ++ e) = some (i, c) := by
  induction l generalizing i with
  | nil => rw [searchResp_nil] at h; cases h
  | cons x t ih =>
      rw [searchResp_cons] at h
      cases hm : matchRespAt (x :: t) with
      | some pr =>
          obtain ⟨cc, rr⟩ := pr
          simp only [hm, Option.some.injEq, Prod.mk.injEq] at h
          obtain ⟨hi, hc⟩ := h
          subst hi
          subst hc
          have hme := matchRespAt_append e hm
          rw [List.cons_append] at hme
          rw [List.cons_append, searchResp_cons]
          simp only [hme]
      | none =>
          simp only [hm] at h
          cases hs : searchResp t with
          | none => rw [hs] at h; cases h
          | some p =>
              obtain ⟨j, cj⟩ := p
              rw [hs] at h
              simp only [Option.map_some', Option.some.injEq, Prod.mk.injEq] at h
              obtain ⟨hi, hc⟩ := h
              subst hi
              subst hc
              have hnone : matchRespAt (x :: (t ++ e)) = none := by
                cases hme : matchRespAt (x :: (t ++ e)) with
                | none => rfl
                | some pr =>
                    exfalso
                    obtain ⟨c', r'⟩ := pr
                    have hme' : matchRespAt ((x :: t) ++ e) = some (c', r') := by
                      rw [List.cons_append]
                      exact hme
                    by_cases hlen : c'.length ≤ (x :: t).length
                    · have hcontra := matchRespAt_of_append hme' hlen
                      rw [hm] at hcontra
                      cases hcontra
                    · push_neg at hlen
                      obtain ⟨g1, g2, g3, g4, hc', hl',
                        ⟨hg1', ha1'⟩, ⟨hg2', ha2'⟩, ⟨hg3', ha3'⟩, ⟨hg4', ha4'⟩⟩ :=
                        matchRespAt_inv hme'
                      obtain ⟨rj, hmj⟩ := searchResp_drop hs
                      obtain ⟨gg1, gg2, gg3, gg4, hcj, hlj, _, _, _, _⟩ :=
                        matchRespAt_inv hmj
                      have hjlt : j < t.length := by
                        by_contra hge
                        push_neg at hge
                        have hdn : t.drop j = [] := List.drop_eq_nil_of_le hge
                        rw [hdn, hcj] at hlj
                        simp at hlj
                      have htj : t[j]? = some '~' := by
                        have h0 : (t.drop j)[0]? = some '~' := by
                          rw [hlj, hcj]
                          simp
                        rw [List.getElem?_drop] at h0
                        simpa using h0
                      have hidx : (x :: (t ++ e))[j + 1]? = some '~' := by
                        rw [List.getElem?_cons_succ,
                            List.getElem?_append_left (by simpa using Nat.lt_of_lt_of_le hjlt (by simp))]
                        exact htj
                      have hidx2 : (c' ++ r')[j + 1]? = some '~' := by
                        rw [← hl']
                        exact hidx
                      have hjc : j + 1 < c'.length := by
                        simp only [List.length_cons] at hlen
                        omega
                      rw [List.getElem?_append_left hjc] at hidx2
                      rw [hc'] at hidx2
                      simp only [List.append_assoc, List.cons_append] at hidx2
                      rw [List.getElem?_cons_succ] at hidx2
                      have hmem := List.getElem?_mem hidx2
                      have hmem' : '~' ∈ g1 ++ ',' :: g2 ++ ',' :: g3 ++ ',' :: g4 ++ '\r' :: '\n' :: [] := by
                        simpa [List.append_assoc] using hmem
                      exact respShape_no_tilde ha1' ha2' ha3' ha4' '~' hmem' rfl
              rw [List.cons_append, searchResp_cons]
              simp only [hnone]
              rw [ih hs]
              rfl

theorem read_until_resp_nil (buf : List Char) :
    read_until_resp [] buf =
      match searchResp buf with
      | some (_, c) => some c
      | none => none := rfl

theorem read_until_resp_cons (ch : List Char) (rest : List (List Char)) (buf : List Char) :
    read_until_resp (ch :: rest) buf =
      match searchResp buf with
      | some (_, c) => some c
      | none =>
          if ch.isEmpty then none
          else read_until_resp rest (buf ++ ch) := rfl

theorem read_until_resp_eq (buf : List Char) (chunks : List (List Char))
    (h : ∀ c ∈ chunks, c ≠ []) :
    read_until_resp chunks buf = (searchResp (buf ++ chunks.flatten)).map Prod.snd := by
  induction chunks generalizing buf with
  | nil =>
      rw [read_until_resp_nil]
      simp only [List.flatten_nil, List.append_nil]
      cases hs : searchResp buf with
      | none => simp
      | some p =>
          obtain ⟨i, c⟩ := p
          simp
  | cons ch rest ih =>
      rw [read_until_resp_cons]
      cases hs : searchResp buf with
      | some p =>
          obtain ⟨i, c⟩ := p
          have h2 : searchResp (buf ++ (ch :: rest).flatten) = some (i, c) :=
            searchResp_append hs
          rw [h2]
          simp only [hs, Option.map_some']
      | none =>
          have hc : ch ≠ [] := h ch (List.mem_cons_self _ _)
          have hce : ¬ ch.isEmpty = true := by
            cases ch with
            | nil => exact absurd rfl hc
            | cons a as => simp
          simp only [hs, hce, if_false]
          have := ih (buf ++ ch) (fun d hd => h d (List.mem_cons_of_mem _ hd))
          rw [this]
          simp [List.append_assoc]

theorem read_until_resp_disconnect (buf : List Char) (pre rest : List (List Char))
    (hp : ∀ c ∈ pre, c ≠ [])
    (hn : searchResp (buf ++ pre.flatten) = none) :
    read_until_resp (pre ++ [] :: rest) buf = none := by
  induction pre generalizing buf with
  | nil =>
      rw [List.nil_append, read_until_resp_cons]
      have hb : searchResp buf = none := by simpa using hn
      simp [hb]
  | cons c pre' ih =>
      have hb : searchResp buf = none := by
        cases hfb : searchResp buf with
        | none => rfl
        | some p =>
            exfalso
            obtain ⟨i, cc⟩ := p
            have := searchResp_append (e := (c :: pre').flatten) hfb
            rw [hn] at this
            cases this
      have hc : c ≠ [] := hp c (List.mem_cons_self _ _)
      have hce : ¬ c.isEmpty = true := by
        cases c with
        | nil => exact absurd rfl hc
        | cons a as => simp
      rw [List.cons_append, read_until_resp_cons]
      simp only [hb, hce, if_false]
      refine ih (buf ++ c) (fun d hd => hp d (List.mem_cons_of_mem _ hd)) ?_
      simpa [List.flatten_cons, List.append_assoc] using hn

theorem pSp_parts (l : List Char) :
    (∀ x ∈ (pSp l).1, x = ' ') ∧ l = (pSp l).1 ++ (pSp l).2 := by
  constructor
  · intro x hx
    have hx' : x ∈ l.takeWhile isSp := hx
    have := List.mem_takeWhile_imp hx'
    simpa [isSp] using this
  · exact (List.takeWhile_append_dropWhile isSp l).symm

theorem pSp_build (sp : List Char) (b : Char) (t : List Char)
    (hsp : ∀ x ∈ sp, x = ' ') (hb : isSp b = false) :
    pSp (sp ++ b :: t) = (sp, b :: t) := by
  obtain ⟨h1, h2⟩ := takeWhile_all_append (p := isSp) sp b t
    (fun x hx => by rw [hsp x hx]; rfl) hb
  simp only [pSp, h1, h2]

theorem pSp_all : ∀ (sp : List Char), (∀ x ∈ sp, x = ' ') → pSp sp = (sp, []) := by
  intro sp
  induction sp with
  | nil => intro _; rfl
  | cons c t ih =>
      intro h
      have hc : c = ' ' := h c (List.mem_cons_self c t)
      have ht := ih (fun x hx => h x (List.mem_cons_of_mem c hx))
      have ht1 : t.takeWhile isSp = t := congrArg Prod.fst ht
      have ht2 : t.dropWhile isSp = [] := congrArg Prod.snd ht
      subst hc
      simp [pSp, List.takeWhile_cons, List.dropWhile_cons, isSp, ht1, ht2]

theorem isDigDot_not_space {c : Char} (h : isDigDot c = true) : isSp c = false := by
  cases hc : isSp c with
  | false => rfl
  | true =>
      exfalso
      have hce : c = ' ' := by simpa [isSp] using hc
      rw [hce] at h
      exact absurd h (by decide)

theorem isDigDot_not_upper {c : Char} (h : isDigDot c = true) : isUpperAZ c = false := by
  unfold isDigDot at h
  rw [Bool.or_eq_true] at h
  rcases h with h1 | h2
  · rw [Bool.and_eq_true] at h1
    obtain ⟨hl, hr⟩ := h1
    have hr' : c ≤ '9' := of_decide_eq_true hr
    have hA : ¬ ('A' ≤ c) := fun hA => absurd (le_trans hA hr') (by decide)
    simp [isUpperAZ, hA]
  · have hce : c = '.' := of_decide_eq_true h2
    rw [hce]; decide

theorem isDigDotColon_not_upper {c : Char} (h : isDigDotColon c = true) :
    isUpperAZ c = false := by
  unfold isDigDotColon at h
  rw [Bool.or_eq_true, Bool.or_eq_true] at h
  rcases h with (h1 | h2) | h3
  · rw [Bool.and_eq_true] at h1
    obtain ⟨hl, hr⟩ := h1
    have hr' : c ≤ '9' := of_decide_eq_true hr
    have hA : ¬ ('A' ≤ c) := fun hA => absurd (le_trans hA hr') (by decide)
    simp [isUpperAZ, hA]
  · have hce : c = '.' := of_decide_eq_true h2
    rw [hce]; decide
  · have hce : c = ':' := of_decide_eq_true h3
    rw [hce]; decide

theorem space_not_upper {c : Char} (h : c = ' ') : isUpperAZ c = false := by
  rw [h]; decide

theorem matchIllipOpt_not_comma : ∀ {l : List Char}, (∀ b ∈ l.take 1, ¬ b = ',') →
    matchIllipOpt l = some ([], l) := by
  intro l h
  cases l with
  | nil => rfl
  | cons c t =>
      have hc : ¬ c = ',' := h c (by simp)
      simp [matchIllipOpt, hc]

theorem matchIllipOpt_comma (sp3 g4 : List Char) (b : Char) (t : List Char)
    (hsp : ∀ x ∈ sp3, x = ' ') (hg : g4 ≠ []) (ha : ∀ x ∈ g4, isDigDot x = true)
    (hb : isDigDot b = false) :
    matchIllipOpt (',' :: sp3 ++ g4 ++ b :: t) = some (',' :: sp3 ++ g4, b :: t) := by
  obtain ⟨h4, t4, rfl⟩ : ∃ h4 t4, g4 = h4 :: t4 := by
    cases g4 with
    | nil => exact absurd rfl hg
    | cons a as => exact ⟨a, as, rfl⟩
  have hh4 : isDigDot h4 = true := ha h4 (List.mem_cons_self _ _)
  have hshape : (',' :: sp3) ++ (h4 :: t4) ++ b :: t
      = ',' :: (sp3 ++ h4 :: (t4 ++ b :: t)) := by
    simp [List.append_assoc]
  rw [hshape]
  have hsps : pSp (sp3 ++ h4 :: (t4 ++ b :: t)) = (sp3, h4 :: (t4 ++ b :: t)) :=
    pSp_build sp3 h4 (t4 ++ b :: t) hsp (isDigDot_not_space hh4)
  have hcls : pCls isDigDot ((h4 :: t4) ++ b :: t) = some (h4 :: t4, b :: t) :=
    pCls_build _ b t hg ha hb
  rw [List.cons_append] at hcls
  simp [matchIllipOpt, hsps, hcls, List.append_assoc]

theorem matchIllipOpt_inv {l o r : List Char} (h : matchIllipOpt l = some (o, r)) :
    (o = [] ∧ r = l) ∨
    (∃ sp3 g4, o = ',' :: sp3 ++ g4 ∧ l = o ++ r ∧
      (∀ x ∈ sp3, x = ' ') ∧ g4 ≠ [] ∧ (∀ x ∈ g4, isDigDot x = true)) := by
  cases l with
  | nil =>
      simp only [matchIllipOpt, Option.some.injEq, Prod.mk.injEq] at h
      exact Or.inl ⟨h.1.symm, h.2.symm⟩
  | cons c r7 =>
      by_cases hc : c = ','
      · subst hc
        simp only [matchIllipOpt, if_pos rfl] at h
        cases hcl : pCls isDigDot (pSp r7).2 with
        | none => rw [hcl] at h; cases h
        | some pr =>
            obtain ⟨g4, r8⟩ := pr
            rw [hcl] at h
            injection h with h1
            injection h1 with ho hr
            subst hr
            subst ho
            obtain ⟨hg4, ha4, hsplit⟩ := pCls_some hcl
            obtain ⟨hallsp, hparts⟩ := pSp_parts r7
            refine Or.inr ⟨(pSp r7).1, g4, rfl, ?_, hallsp, hg4, ha4⟩
            conv_lhs => rw [hparts]
            rw [hsplit]
            simp [List.append_assoc]
      · simp only [matchIllipOpt, if_neg hc, Option.some.injEq, Prod.mk.injEq] at h
        exact Or.inl ⟨h.1.symm, h.2.symm⟩

theorem illipOpt_step (opt : Option (List Char × List Char)) (sp4 x : List Char)
    (hopt : optOk opt) (hsp4 : ∀ y ∈ sp4, y = ' ') :
    (∃ b trest, optText opt ++ (sp4 ++ '\r' :: '\n' :: x) = b :: trest ∧
      isDigDot b = false) ∧
    matchIllipOpt (optText opt ++ (sp4 ++ '\r' :: '\n' :: x))
      = some (optText opt, sp4 ++ '\r' :: '\n' :: x) := by
  cases opt with
  | none =>
      simp only [optText, List.nil_append]
      constructor
      · cases sp4 with
        | nil => exact ⟨'\r', '\n' :: x, rfl, by decide⟩
        | cons s sp4' =>
            have hs : s = ' ' := hsp4 s (List.mem_cons_self _ _)
            subst hs
            exact ⟨' ', sp4' ++ '\r' :: '\n' :: x, by simp, by decide⟩
      · refine matchIllipOpt_not_comma ?_
        cases sp4 with
        | nil =>
            intro b hb
            simp at hb
            subst hb
            decide
        | cons s sp4' =>
            have hs : s = ' ' := hsp4 s (List.mem_cons_self _ _)
            subst hs
            intro b hb
            simp at hb
            subst hb
            decide
  | some p =>
      obtain ⟨sp3, g4⟩ := p
      obtain ⟨hsp3, hg4, ha4⟩ := hopt
      constructor
      · refine ⟨',', sp3 ++ g4 ++ (sp4 ++ '\r' :: '\n' :: x), ?_, by decide⟩
        simp [optText, List.append_assoc]
      · cases sp4 with
        | nil =>
            have hcm := matchIllipOpt_comma sp3 g4 '\r' ('\n' :: x) hsp3 hg4 ha4
              (by decide)
            simpa [optText, List.append_assoc] using hcm
        | cons s sp4' =>
            have hs : s = ' ' := hsp4 s (List.mem_cons_self _ _)
            subst hs
            have hcm := matchIllipOpt_comma sp3 g4 ' ' (sp4' ++ '\r' :: '\n' :: x)
              hsp3 hg4 ha4 (by decide)
            simpa [optText, List.append_assoc] using hcm

theorem illipAfterG1_inv {l c2 r : List Char}
    (h : matchIllipAfterG1 l = some (c2, r)) :
    ∃ sp1 g2 sp2 g3 opt sp4,
      c2 = illipTail sp1 g2 sp2 g3 opt sp4 ∧ l = c2 ++ r ∧
      illipTailOk sp1 g2 sp2 g3 opt sp4 := by
  unfold matchIllipAfterG1 at h
  split at h
  · cases h
  next r1 h0 =>
  split at h
  · cases h
  next r2 h1 =>
  split at h
  · cases h
  next g2 r3 h2 =>
  split at h
  · cases h
  next r4 h3 =>
  split at h
  · cases h
  next r5 h4 =>
  split at h
  · cases h
  next g3 r6 h5 =>
  split at h
  · cases h
  next o r8 h6 =>
  split at h
  · cases h
  next r9 h7 =>
  split at h
  · cases h
  next r10 h8 =>
  simp only [Option.some.injEq, Prod.mk.injEq] at h
  obtain ⟨hc, hr⟩ := h
  subst hc
  subst hr
  obtain ⟨hg2, ha2, he2⟩ := pCls_some h2
  obtain ⟨hg3, ha3, he3⟩ := pCls_some h5
  obtain ⟨hsp1, hp1⟩ := pSp_parts r1
  obtain ⟨hsp2, hp2⟩ := pSp_parts r5
  obtain ⟨hsp4, hp4⟩ := pSp_parts r8
  rcases matchIllipOpt_inv h6 with ⟨ho, hro⟩ | ⟨sp3, g4, ho, hol, hsp3, hg4, ha4⟩
  · refine ⟨(pSp r1).1, g2, (pSp r5).1, g3, none, (pSp r8).1, ?_, ?_, ?_⟩
    · rw [ho]; simp [illipTail, optText]
    · rw [pCh_some h0]
      conv_lhs => rw [hp1]
      rw [pCh_some h1, he2, pCh_some h3, pCh_some h4]
      conv_lhs => rw [hp2]
      rw [he3, ← hro]
      conv_lhs => rw [hp4]
      rw [pCh_some h7, pCh_some h8, ho]
      simp [illipTail, optText, List.append_assoc]
    · exact ⟨hsp1, ⟨hg2, ha2⟩, hsp2, ⟨hg3, ha3⟩, trivial, hsp4⟩
  · refine ⟨(pSp r1).1, g2, (pSp r5).1, g3, some (sp3, g4), (pSp r8).1, ?_, ?_, ?_⟩
    · rw [ho]; simp [illipTail, optText, List.append_assoc]
    · rw [pCh_some h0]
      conv_lhs => rw [hp1]
      rw [pCh_some h1, he2, pCh_some h3, pCh_some h4]
      conv_lhs => rw [hp2]
      rw [he3, hol]
      conv_lhs => rw [hp4]
      rw [pCh_some h7, pCh_some h8, ho]
      simp [illipTail, optText, List.append_assoc]
    · exact ⟨hsp1, ⟨hg2, ha2⟩, hsp2, ⟨hg3, ha3⟩, ⟨hsp3, hg4, ha4⟩, hsp4⟩

theorem illipAfterG1_build (sp1 g2 sp2 g3 : List Char)
    (opt : Option (List Char × List Char)) (sp4 x : List Char)
    (hok : illipTailOk sp1 g2 sp2 g3 opt sp4) :
    matchIllipAfterG1 (illipTail sp1 g2 sp2 g3 opt sp4 ++ x)
      = some (illipTail sp1 g2 sp2 g3 opt sp4, x) := by
  obtain ⟨hsp1, ⟨hg2, ha2⟩, hsp2, ⟨hg3, ha3⟩, hopt, hsp4⟩ := hok
  obtain ⟨h3, t3, rfl⟩ : ∃ a b, g3 = a :: b := by
    cases g3 with
    | nil => exact absurd rfl hg3
    | cons a b => exact ⟨a, b, rfl⟩
  have hh3 : isDigDot h3 = true := ha3 h3 (List.mem_cons_self _ _)
  obtain ⟨⟨b, trest, hbt, hbdd⟩, hIopt⟩ := illipOpt_step opt sp4 x hopt hsp4
  have hinput : illipTail sp1 g2 sp2 (h3 :: t3) opt sp4 ++ x
      = ',' :: (sp1 ++ '[' :: (g2 ++ ']' :: ',' ::
          (sp2 ++ h3 :: (t3 ++ (optText opt ++ (sp4 ++ '\r' :: '\n' :: x)))))) := by
    simp [illipTail, List.append_assoc]
  have eB : pSp (sp1 ++ '[' :: (g2 ++ ']' :: ',' ::
        (sp2 ++ h3 :: (t3 ++ (optText opt ++ (sp4 ++ '\r' :: '\n' :: x))))))
      = (sp1, '[' :: (g2 ++ ']' :: ',' ::
        (sp2 ++ h3 :: (t3 ++ (optText opt ++ (sp4 ++ '\r' :: '\n' :: x)))))) :=
    pSp_build sp1 '[' _ hsp1 (by decide)
  have eD : pCls isDigDotColon (g2 ++ ']' :: ',' ::
        (sp2 ++ h3 :: (t3 ++ (optText opt ++ (sp4 ++ '\r' :: '\n' :: x)))))
      = some (g2, ']' :: ',' ::
        (sp2 ++ h3 :: (t3 ++ (optText opt ++ (sp4 ++ '\r' :: '\n' :: x))))) :=
    pCls_build g2 ']' _ hg2 ha2 (by decide)
  have eG : pSp (sp2 ++ h3 :: (t3 ++ (optText opt ++ (sp4 ++ '\r' :: '\n' :: x))))
      = (sp2, h3 :: (t3 ++ (optText opt ++ (sp4 ++ '\r' :: '\n' :: x)))) :=
    pSp_build sp2 h3 _ hsp2 (isDigDot_not_space hh3)
  have eH : pCls isDigDot (h3 :: (t3 ++ (optText opt ++ (sp4 ++ '\r' :: '\n' :: x))))
      = some (h3 :: t3, optText opt ++ (sp4 ++ '\r' :: '\n' :: x)) := by
    have eH0 := pCls_build (h3 :: t3) b trest hg3 ha3 hbdd
    rw [← hbt] at eH0
    rw [List.cons_append] at eH0
    exact eH0
  have eJ : pSp (sp4 ++ '\r' :: '\n' :: x) = (sp4, '\r' :: '\n' :: x) :=
    pSp_build sp4 '\r' _ hsp4 (by decide)
  rw [hinput]
  unfold matchIllipAfterG1
  simp only [pCh_build, eB, eD, eG, eH, hIopt, eJ]
  simp [illipTail, List.append_assoc]

theorem illipTail_no_upper {sp1 g2 sp2 g3 : List Char}
    {opt : Option (List Char × List Char)} {sp4 : List Char}
    (hok : illipTailOk sp1 g2 sp2 g3 opt sp4) :
    ∀ y ∈ illipTail sp1 g2 sp2 g3 opt sp4, isUpperAZ y = false := by
  obtain ⟨hsp1, ⟨hg2, ha2⟩, hsp2, ⟨hg3, ha3⟩, hopt, hsp4⟩ := hok
  intro y hy
  have hmem : y = ',' ∨ y ∈ sp1 ∨ y = '[' ∨ y ∈ g2 ∨ y = ']' ∨ y ∈ sp2 ∨ y ∈ g3 ∨
      y ∈ optText opt ∨ y ∈ sp4 ∨ y = '\r' ∨ y = '\n' := by
    simp only [illipTail, List.mem_append, List.mem_cons, List.mem_singleton,
      List.cons_append, List.append_assoc] at hy
    tauto
  rcases hmem with h | h | h | h | h | h | h | h | h | h | h
  · rw [h]; decide
  · rw [hsp1 y h]; decide
  · rw [h]; decide
  · exact isDigDotColon_not_upper (ha2 y h)
  · rw [h]; decide
  · rw [hsp2 y h]; decide
  · exact isDigDot_not_upper (ha3 y h)
  · cases opt with
    | none => simp [optText] at h
    | some p =>
        obtain ⟨sp3, g4⟩ := p
        obtain ⟨hsp3, hg4, ha4⟩ := hopt
        have h2 : y = ',' ∨ y ∈ sp3 ∨ y ∈ g4 := by
          simp only [optText, List.mem_append, List.mem_cons,
            List.cons_append] at h
          tauto
        rcases h2 with h2 | h2 | h2
        · rw [h2]; decide
        · rw [hsp3 y h2]; decide
        · exact isDigDot_not_upper (ha4 y h2)
  · rw [hsp4 y h]; decide
  · rw [h]; decide
  · rw [h]; decide

theorem matchIllipAt_inv {l c r : List Char} (h : matchIllipAt l = some (c, r)) :
    ∃ g1 sp1 g2 sp2 g3 opt sp4,
      c = g1 ++ illipTail sp1 g2 sp2 g3 opt sp4 ∧ l = c ++ r ∧
      g1 ≠ [] ∧ (∀ x ∈ g1, isUpperAZ x = true) ∧
      illipTailOk sp1 g2 sp2 g3 opt sp4 := by
  unfold matchIllipAt at h
  split at h
  · cases h
  next g1 r1 h1 =>
  cases hg : matchIllipAfterG1 r1 with
  | none => rw [hg] at h; cases h
  | some pr =>
      obtain ⟨c2, r2⟩ := pr
      rw [hg] at h
      simp only [Option.map_some', Option.some.injEq, Prod.mk.injEq] at h
      obtain ⟨hc, hr⟩ := h
      obtain ⟨hg1, ha1, hsplit⟩ := pCls_some h1
      obtain ⟨sp1, g2, sp2, g3, opt, sp4, hc2, hl2, hok⟩ := illipAfterG1_inv hg
      subst hr
      refine ⟨g1, sp1, g2, sp2, g3, opt, sp4, ?_, ?_, hg1, ha1, hok⟩
      · rw [← hc, hc2]
      · rw [← hc, hsplit, hl2, hc2]
        simp [List.append_assoc]

theorem matchIllipAt_build (g1 sp1 g2 sp2 g3 : List Char)
    (opt : Option (List Char × List Char)) (sp4 x : List Char)
    (hg1 : g1 ≠ []) (ha1 : ∀ y ∈ g1, isUpperAZ y = true)
    (hok : illipTailOk sp1 g2 sp2 g3 opt sp4) :
    matchIllipAt ((g1 ++ illipTail sp1 g2 sp2 g3 opt sp4) ++ x)
      = some (g1 ++ illipTail sp1 g2 sp2 g3 opt sp4, x) := by
  have hb := illipAfterG1_build sp1 g2 sp2 g3 opt sp4 x hok
  have hz : illipTail sp1 g2 sp2 g3 opt sp4 ++ x
      = ',' :: ((sp1 ++ '[' :: g2 ++ ']' :: ',' :: sp2 ++ g3 ++ optText opt ++ sp4 ++
          '\r' :: '\n' :: []) ++ x) := by
    simp [illipTail, List.append_assoc]
  have e1 : pCls isUpperAZ (g1 ++ (illipTail sp1 g2 sp2 g3 opt sp4 ++ x))
      = some (g1, illipTail sp1 g2 sp2 g3 opt sp4 ++ x) := by
    rw [hz]
    exact pCls_build g1 ',' _ hg1 ha1 (by decide)
  unfold matchIllipAt
  rw [List.append_assoc]
  simp only [e1, hb, Option.map_some']

theorem matchIllipAt_append {l c r : List Char} (e : List Char)
    (h : matchIllipAt l = some (c, r)) : matchIllipAt (l ++ e) = some (c, r ++ e) := by
  obtain ⟨g1, sp1, g2, sp2, g3, opt, sp4, hc, hl, hg1, ha1, hok⟩ := matchIllipAt_inv h
  subst hc
  rw [hl, List.append_assoc]
  exact matchIllipAt_build g1 sp1 g2 sp2 g3 opt sp4 (r ++ e) hg1 ha1 hok

theorem matchIllipAt_of_append {u e c r : List Char}
    (h : matchIllipAt (u ++ e) = some (c, r)) (hle : c.length ≤ u.length) :
    matchIllipAt u = some (c, u.drop c.length) := by
  obtain ⟨g1, sp1, g2, sp2, g3, opt, sp4, hc, hl, hg1, ha1, hok⟩ := matchIllipAt_inv h
  have hu : u = c ++ u.drop c.length := by
    have htake : u.take c.length = c := by
      have h1 : (u ++ e).take c.length = u.take c.length :=
        List.take_append_of_le_length hle
      have h2 : (u ++ e).take c.length = c := by
        rw [hl]
        exact List.take_left' rfl
      rw [← h1, h2]
    conv_lhs => rw [← List.take_append_drop c.length u]
    rw [htake]
  conv_lhs => rw [hu]
  subst hc
  exact matchIllipAt_build g1 sp1 g2 sp2 g3 opt sp4 _ hg1 ha1 hok

theorem matchIllipAt_absorb {s u c r : List Char}
    (hs : ∀ y ∈ s, isUpperAZ y = true) (h : matchIllipAt u = some (c, r)) :
    matchIllipAt (s ++ u) = some (s ++ c, r) := by
  obtain ⟨g1, sp1, g2, sp2, g3, opt, sp4, hc, hu, hg1, ha1, hok⟩ := matchIllipAt_inv h
  subst hc
  rw [hu]
  have hg1' : s ++ g1 ≠ [] := by
    intro hh
    exact hg1 (List.append_eq_nil.mp hh).2
  have ha1' : ∀ y ∈ s ++ g1, isUpperAZ y = true := by
    intro y hy
    rcases List.mem_append.mp hy with h1 | h1
    · exact hs y h1
    · exact ha1 y h1
  have hb := matchIllipAt_build (s ++ g1) sp1 g2 sp2 g3 opt sp4 r hg1' ha1' hok
  have hsh : s ++ ((g1 ++ illipTail sp1 g2 sp2 g3 opt sp4) ++ r)
      = ((s ++ g1) ++ illipTail sp1 g2 sp2 g3 opt sp4) ++ r := by
    simp [List.append_assoc]
  rw [hsh, hb]
  simp [List.append_assoc]

theorem searchIllip_nil : searchIllip [] = none := rfl

theorem searchIllip_cons (x : Char) (t : List Char) :
    searchIllip (x :: t) =
      match matchIllipAt (x :: t) with
      | some (c, _) => some (0, c)
      | none => (searchIllip t).map fun p => (p.1 + 1, p.2) := rfl

theorem searchIllip_drop {l : List Char} {i : Nat} {c : List Char}
    (h : searchIllip l = some (i, c)) :
    ∃ r, matchIllipAt (l.drop i) = some (c, r) := by
  induction l generalizing i with
  | nil => rw [searchIllip_nil] at h; cases h
  | cons x t ih =>
      rw [searchIllip_cons] at h
      cases hm : matchIllipAt (x :: t) with
      | some pr =>
          obtain ⟨cc, rr⟩ := pr
          simp only [hm, Option.some.injEq, Prod.mk.injEq] at h
          obtain ⟨hi, hc⟩ := h
          subst hi
          subst hc
          exact ⟨rr, hm⟩
      | none =>
          simp only [hm] at h
          cases hs : searchIllip t with
          | none => rw [hs] at h; cases h
          | some p =>
              obtain ⟨j, cj⟩ := p
              rw [hs] at h
              simp only [Option.map_some', Option.some.injEq, Prod.mk.injEq] at h
              obtain ⟨hi, hc⟩ := h
              subst hi
              subst hc
              rw [List.drop_succ_cons]
              exact ih hs

theorem searchIllip_append {l e : List Char} {i : Nat} {c : List Char}
    (h : searchIllip l = some (i, c)) : searchIllip (l ++ e) = some (i, c) := by
  induction l generalizing i with
  | nil => rw [searchIllip_nil] at h; cases h
  | cons x t ih =>
      rw [searchIllip_cons] at h
      cases hm : matchIllipAt (x :: t) with
      | some pr =>
          obtain ⟨cc, rr⟩ := pr
          simp only [hm, Option.some.injEq, Prod.mk.injEq] at h
          obtain ⟨hi, hc⟩ := h
          subst hi
          subst hc
          have hme := matchIllipAt_append e hm
          rw [List.cons_append] at hme
          rw [List.cons_append, searchIllip_cons]
          simp only [hme]
      | none =>
          simp only [hm] at h
          cases hs : searchIllip t with
          | none => rw [hs] at h; cases h
          | some p =>
              obtain ⟨j, cj⟩ := p
              rw [hs] at h
              simp only [Option.map_some', Option.some.injEq, Prod.mk.injEq] at h
              obtain ⟨hi, hc⟩ := h
              subst hi
              subst hc
              have hnone : matchIllipAt (x :: (t ++ e)) = none := by
                cases hme : matchIllipAt (x :: (t ++ e)) with
                | none => rfl
                | some pr =>
                    exfalso
                    obtain ⟨c', r'⟩ := pr
                    have hme' : matchIllipAt ((x :: t) ++ e) = some (c', r') := by
                      rw [List.cons_append]
                      exact hme
                    by_cases hlen : c'.length ≤ (x :: t).length
                    · have hcontra := matchIllipAt_of_append hme' hlen
                      rw [hm] at hcontra
                      cases hcontra
                    · push_neg at hlen
                      obtain ⟨rj, hmj⟩ := searchIllip_drop hs
                      obtain ⟨g1c, sp1c, g2c, sp2c, g3c, optc, sp4c, hcj, hlj,
                        hg1c, ha1c, hokc⟩ := matchIllipAt_inv hmj
                      obtain ⟨g1', sp1', g2', sp2', g3', opt', sp4', hc', hl',
                        hg1', ha1', hok'⟩ := matchIllipAt_inv hme
                      have hcjne : cj ≠ [] := by
                        intro hh
                        rw [hh] at hcj
                        exact hg1c (List.append_eq_nil.mp hcj.symm).1
                      have hjlt : j < t.length := by
                        by_contra hge
                        push_neg at hge
                        have hdn : t.drop j = [] := List.drop_eq_nil_of_le hge
                        rw [hdn] at hlj
                        exact hcjne (List.append_eq_nil.mp hlj.symm).1
                      have hxt : (x :: t).length = t.length + 1 := by simp
                      obtain ⟨u0, g1t, hg1cons⟩ : ∃ a b, g1c = a :: b := by
                        cases g1c with
                        | nil => exact absurd rfl hg1c
                        | cons a b => exact ⟨a, b, rfl⟩
                      have hu0 : isUpperAZ u0 = true := by
                        rw [hg1cons] at ha1c
                        exact ha1c u0 (List.mem_cons_self _ _)
                      have htj : t[j]? = some u0 := by
                        have h0 : (t.drop j)[0]? = some u0 := by
                          rw [hlj, hcj, hg1cons]
                          simp
                        rw [List.getElem?_drop] at h0
                        simpa using h0
                      by_cases hall : ∀ y ∈ (x :: t).take (j + 1), isUpperAZ y = true
                      · have h2 : (x :: t).drop (j + 1) = t.drop j :=
                          List.drop_succ_cons
                        have hsplit : x :: (t ++ e)
                            = ((x :: t).take (j + 1)) ++ (t.drop j ++ e) := by
                          calc x :: (t ++ e) = (x :: t) ++ e := by
                                rw [List.cons_append]
                            _ = ((x :: t).take (j + 1) ++ (x :: t).drop (j + 1)) ++ e := by
                                rw [List.take_append_drop]
                            _ = ((x :: t).take (j + 1)) ++ (t.drop j ++ e) := by
                                rw [h2, List.append_assoc]
                        have hinner : matchIllipAt (t.drop j ++ e) = some (cj, rj ++ e) :=
                          matchIllipAt_append e hmj
                        have habs := matchIllipAt_absorb hall hinner
                        rw [← hsplit] at habs
                        rw [hme] at habs
                        injection habs with hab
                        injection hab with hab1 hab2
                        have hlencj : t.length - j = cj.length + rj.length := by
                          have hlj' := congrArg List.length hlj
                          simpa [List.length_drop] using hlj'
                        have hlentake : ((x :: t).take (j + 1)).length = j + 1 := by
                          simp [List.length_take]
                          omega
                        have hcle : c'.length ≤ (x :: t).length := by
                          rw [hab1]
                          simp only [List.length_append, hlentake, hxt]
                          omega
                        omega
                      · push_neg at hall
                        obtain ⟨y, hy, hyu⟩ := hall
                        obtain ⟨q, hq, hqy⟩ := List.getElem_of_mem hy
                        have htklen : ((x :: t).take (j + 1)).length ≤ j + 1 := by
                          simp [List.length_take]
                        have hqlt : q < j + 1 := by omega
                        have hqlen : q < (x :: t).length := by
                          have := List.length_take_le (j + 1) (x :: t)
                          omega
                        have hqy' : (x :: t)[q]? = some y := by
                          have h1 : ((x :: t).take (j + 1))[q]? = some y := by
                            rw [List.getElem?_eq_getElem hq, hqy]
                          rw [List.getElem?_take] at h1
                          simpa [hqlt] using h1
                        have hqe : (x :: (t ++ e))[q]? = some y := by
                          rw [show x :: (t ++ e) = (x :: t) ++ e from by
                            rw [List.cons_append]]
                          rw [List.getElem?_append_left hqlen]
                          exact hqy'
                        have hqc : q < c'.length := by omega
                        have hqc' : c'[q]? = some y := by
                          have h1 : (c' ++ r')[q]? = some y := by
                            rw [← hl']
                            exact hqe
                          rw [List.getElem?_append_left hqc] at h1
                          exact h1
                        have hqg1 : g1'.length ≤ q := by
                          by_contra hqg
                          push_neg at hqg
                          have h1 : (g1' ++ illipTail sp1' g2' sp2' g3' opt' sp4')[q]?
                              = some y := by
                            rw [← hc']
                            exact hqc'
                          rw [List.getElem?_append_left hqg] at h1
                          exact hyu (ha1' y (List.getElem?_mem h1))
                        have hj1c : j + 1 < c'.length := by omega
                        have hj1e : (x :: (t ++ e))[j + 1]? = some u0 := by
                          rw [List.getElem?_cons_succ,
                              List.getElem?_append_left hjlt]
                          exact htj
                        have hj1c' : c'[j + 1]? = some u0 := by
                          have h1 : (c' ++ r')[j + 1]? = some u0 := by
                            rw [← hl']
                            exact hj1e
                          rw [List.getElem?_append_left hj1c] at h1
                          exact h1
                        have hj1tail :
                            (illipTail sp1' g2' sp2' g3' opt' sp4')[j + 1 - g1'.length]?
                              = some u0 := by
                          have h1 : (g1' ++ illipTail sp1' g2' sp2' g3' opt' sp4')[j + 1]?
                              = some u0 := by
                            rw [← hc']
                            exact hj1c'
                          rw [List.getElem?_append_right (by omega)] at h1
                          exact h1
                        have humem : u0 ∈ illipTail sp1' g2' sp2' g3' opt' sp4' :=
                          List.getElem?_mem hj1tail
                        have hupf := illipTail_no_upper hok' u0 humem
                        rw [hu0] at hupf
                        cases hupf
              rw [List.cons_append, searchIllip_cons]
              simp only [hnone]
              rw [ih hs]
              rfl

theorem read_until_iresp_nil (buf : List Char) :
    read_until_iresp [] buf =
      match searchIllip buf with
      | some (_, c) => some c
      | none => none := rfl

theorem read_until_iresp_cons (ch : List Char) (rest : List (List Char))
    (buf : List Char) :
    read_until_iresp (ch :: rest) buf =
      match searchIllip buf with
      | some (_, c) => some c
      | none =>
          if ch.isEmpty then none
          else read_until_iresp rest (buf ++ ch) := rfl

theorem read_until_iresp_eq (buf : List Char) (chunks : List (List Char))
    (h : ∀ c ∈ chunks, c ≠ []) :
    read_until_iresp chunks buf
      = (searchIllip (buf ++ chunks.flatten)).map Prod.snd := by
  induction chunks generalizing buf with
  | nil =>
      rw [read_until_iresp_nil]
      simp only [List.flatten_nil, List.append_nil]
      cases hs : searchIllip buf with
      | none => simp
      | some p =>
          obtain ⟨i, c⟩ := p
          simp
  | cons ch rest ih =>
      rw [read_until_iresp_cons]
      cases hs : searchIllip buf with
      | some p =>
          obtain ⟨i, c⟩ := p
          have h2 : searchIllip (buf ++ (ch :: rest).flatten) = some (i, c) :=
            searchIllip_append hs
          rw [h2]
          simp only [hs, Option.map_some']
      | none =>
          have hc : ch ≠ [] := h ch (List.mem_cons_self _ _)
          have hce : ¬ ch.isEmpty = true := by
            cases ch with
            | nil => exact absurd rfl hc
            | cons a as => simp
          simp only [hs, hce, if_false]
          have hih := ih (buf ++ ch) (fun d hd => h d (List.mem_cons_of_mem _ hd))
          rw [hih]
          simp [List.append_assoc]

theorem read_until_iresp_disconnect (buf : List Char) (pre rest : List (List Char))
    (hp : ∀ c ∈ pre, c ≠ [])
    (hn : searchIllip (buf ++ pre.flatten) = none) :
    read_until_iresp (pre ++ [] :: rest) buf = none := by
  induction pre generalizing buf with
  | nil =>
      rw [List.nil_append, read_until_iresp_cons]
      have hb : searchIllip buf = none := by simpa using hn
      simp [hb]
  | cons c pre' ih =>
      have hb : searchIllip buf = none := by
        cases hfb : searchIllip buf with
        | none => rfl
        | some p =>
            exfalso
            obtain ⟨i, cc⟩ := p
            have hap := searchIllip_append (e := (c :: pre').flatten) hfb
            rw [hn] at hap
            cases hap
      have hc : c ≠ [] := hp c (List.mem_cons_self _ _)
      have hce : ¬ c.isEmpty = true := by
        cases c with
        | nil => exact absurd rfl hc
        | cons a as => simp
      rw [List.cons_append, read_until_iresp_cons]
      simp only [hb, hce, if_false]
      refine ih (buf ++ c) (fun d hd => hp d (List.mem_cons_of_mem _ hd)) ?_
      simpa [List.flatten_cons, List.append_assoc] using hn

/-- C8: for a literal byte-sequence terminator and for both frame patterns
the readers pass to _read_until (liplib's RESPONSE_RE
~([A-Z]+),([0-9.]+),([0-9.]+),([0-9.]+)\r\n at liplib.py line 86, and the
Illumination client's RESPONSE_RE
([A-Z]+), *\[([0-9.:]+)\], *([0-9.]+)(, *([0-9.]+))? *\r\n at illiplib.py
line 46, which read_raw passes at line 203), _read_until returns the same
frame no matter how the byte stream is split into successive nonempty
partial reads; and whenever a zero-length read arrives before any match
has completed, _read_until returns the disconnect failure signal (None
here for the Python False), never a partial frame. -/
theorem read_until_chunk_invariance :
    (∀ (term : List Char) (cs1 cs2 : List (List Char)),
      (∀ c ∈ cs1, c ≠ []) → (∀ c ∈ cs2, c ≠ []) → cs1.flatten = cs2.flatten →
      read_until_bytes term cs1 [] = read_until_bytes term cs2 []) ∧
    (∀ (term : List Char) (pre rest : List (List Char)),
      (∀ c ∈ pre, c ≠ []) → findSub term pre.flatten = none →
      read_until_bytes term (pre ++ [] :: rest) [] = none) ∧
    (∀ cs1 cs2 : List (List Char),
      (∀ c ∈ cs1, c ≠ []) → (∀ c ∈ cs2, c ≠ []) → cs1.flatten = cs2.flatten →
      read_until_resp cs1 [] = read_until_resp cs2 []) ∧
    (∀ pre rest : List (List Char),
      (∀ c ∈ pre, c ≠ []) → searchResp pre.flatten = none →
      read_until_resp (pre ++ [] :: rest) [] = none) ∧
    (∀ cs1 cs2 : List (List Char),
      (∀ c ∈ cs1, c ≠ []) → (∀ c ∈ cs2, c ≠ []) → cs1.flatten = cs2.flatten →
      read_until_iresp cs1 [] = read_until_iresp cs2 []) ∧
    (∀ pre rest : List (List Char),
      (∀ c ∈ pre, c ≠ []) → searchIllip pre.flatten = none →
      read_until_iresp (pre ++ [] :: rest) [] = none) := by
  refine ⟨?_, ?_, ?_, ?_, ?_, ?_⟩
  · intro term cs1 cs2 h1 h2 hj
    rw [read_until_bytes_eq term [] cs1 h1, read_until_bytes_eq term [] cs2 h2, hj]
  · intro term pre rest hp hn
    exact read_until_bytes_disconnect term [] pre rest hp (by simpa using hn)
  · intro cs1 cs2 h1 h2 hj
    rw [read_until_resp_eq [] cs1 h1, read_until_resp_eq [] cs2 h2, hj]
  · intro pre rest hp hn
    exact read_until_resp_disconnect [] pre rest hp (by simpa using hn)
  · intro cs1 cs2 h1 h2 hj
    rw [read_until_iresp_eq [] cs1 h1, read_until_iresp_eq [] cs2 h2, hj]
  · intro pre rest hp hn
    exact read_until_iresp_disconnect [] pre rest hp (by simpa using hn)

/-- Witness for C8: the stream xab containing the terminator ab split two
ways gives the same frame xab; a LIP notification frame split mid-number
gives the same decoded frame as the unsplit stream; an Illumination frame
(with its bracketed colon address and space padding) split mid-address
gives the same frame as the unsplit stream; and a zero-length read before
any match yields the failure signal in all three modes. -/
theorem read_until_chunk_invariance_witness :
    read_until_bytes ['a', 'b'] [['x', 'a'], ['b', 'c']] []
      = read_until_bytes ['a', 'b'] [['x'], ['a', 'b', 'c']] [] ∧
    read_until_resp ["junk~OUT".data, "PUT,23,1,0".data, ".00\r\nx".data] []
      = read_until_resp ["junk~OUTPUT,23,1,0.00\r\nx".data] [] ∧
    read_until_iresp ["jDL, [01:0".data, "4:02:06],   0".data, ".00\r\ny".data] []
      = read_until_iresp ["jDL, [01:04:02:06],   0.00\r\ny".data] [] ∧
    read_until_bytes ['a', 'b'] [['x'], [], ['a', 'b']] [] = none ∧
    read_until_resp [['~'], [], "OUTPUT,1,1,1\r\n".data] [] = none ∧
    read_until_iresp ["DL, [".data, [], "01], 1\r\n".data] [] = none := by
  have h := read_until_chunk_invariance
  refine ⟨h.1 ['a', 'b'] [['x', 'a'], ['b', 'c']] [['x'], ['a', 'b', 'c']]
            (by decide) (by decide) (by decide),
          h.2.2.1 ["junk~OUT".data, "PUT,23,1,0".data, ".00\r\nx".data]
            ["junk~OUTPUT,23,1,0.00\r\nx".data]
            (by decide) (by decide) (by decide),
          h.2.2.2.2.1 ["jDL, [01:0".data, "4:02:06],   0".data, ".00\r\ny".data]
            ["jDL, [01:04:02:06],   0.00\r\ny".data]
            (by decide) (by decide) (by decide),
          ?_, ?_, ?_⟩
  · have hb := h.2.1 ['a', 'b'] [['x']] [['a', 'b']] (by decide) (by decide)
    simpa using hb
  · have hb := h.2.2.2.1 [['~']] ["OUTPUT,1,1,1\r\n".data] (by decide) (by decide)
    simpa using hb
  · have hb := h.2.2.2.2.2 ["DL, [".data] ["01], 1\r\n".data] (by decide) (by decide)
    simpa using hb

/-! ### C3: directory round trip -/

theorem mem_keys_dictInsert {κ ν : Type} [DecidableEq κ] {m : List (κ × ν)}
    {k : κ} {v : ν} {a : κ} :
    a ∈ (dictInsert m k v).map Prod.fst ↔ a ∈ m.map Prod.fst ∨ a = k := by
  induction m with
  | nil => simp [dictInsert]
  | cons hd tl ih =>
      obtain ⟨k0, v0⟩ := hd
      by_cases h0 : k0 = k
      · subst h0
        simp [dictInsert]
        tauto
      · simp only [dictInsert, if_neg h0, List.map_cons, List.mem_cons, ih]
        tauto

theorem keys_nodup_dictInsert {κ ν : Type} [DecidableEq κ] {m : List (κ × ν)}
    (k : κ) (v : ν) (h : (m.map Prod.fst).Nodup) :
    ((dictInsert m k v).map Prod.fst).Nodup := by
  induction m with
  | nil => simp [dictInsert]
  | cons hd tl ih =>
      obtain ⟨k0, v0⟩ := hd
      simp only [List.map_cons, List.nodup_cons] at h
      by_cases h0 : k0 = k
      · subst h0
        simp only [dictInsert, eq_self_iff_true, if_true, List.map_cons, List.nodup_cons]
        exact h
      · simp only [dictInsert, if_neg h0, List.map_cons, List.nodup_cons]
        refine ⟨?_, ih h.2⟩
        intro hmem
        rcases mem_keys_dictInsert.mp hmem with hm | he
        · exact h.1 hm
        · exact h0 he

theorem dictGet_eq_some_iff_mem {κ ν : Type} [DecidableEq κ] {m : List (κ × ν)}
    (h : (m.map Prod.fst).Nodup) {k : κ} {v : ν} :
    dictGet m k = some v ↔ (k, v) ∈ m := by
  induction m with
  | nil => simp [dictGet]
  | cons hd tl ih =>
      obtain ⟨k0, v0⟩ := hd
      simp only [List.map_cons, List.nodup_cons] at h
      rw [dictGet]
      by_cases h0 : k0 = k
      · subst h0
        rw [if_pos rfl]
        simp only [Option.some.injEq, List.mem_cons, Prod.mk.injEq]
        constructor
        · intro hv
          exact Or.inl ⟨trivial, hv.symm⟩
        · rintro (⟨_, hv⟩ | hm)
          · rw [hv]
          · exact absurd (List.mem_map.mpr ⟨(k0, v), hm, rfl⟩) h.1
      · rw [if_neg h0, ih h.2]
        simp only [List.mem_cons, Prod.mk.injEq]
        constructor
        · exact Or.inr
        · rintro (⟨hk, _⟩ | hm)
          · exact absurd hk.symm h0
          · exact hm

theorem dictGet_eq_none_iff {κ ν : Type} [DecidableEq κ] {m : List (κ × ν)} {k : κ} :
    dictGet m k = none ↔ k ∉ m.map Prod.fst := by
  induction m with
  | nil => simp [dictGet]
  | cons hd tl ih =>
      obtain ⟨k0, v0⟩ := hd
      rw [dictGet]
      by_cases h0 : k0 = k
      · subst h0
        simp [if_pos rfl]
      · rw [if_neg h0, ih]
        simp only [List.map_cons, List.mem_cons]
        constructor
        · intro hk hor
          rcases hor with he | hm
          · exact h0 he.symm
          · exact hk hm
        · intro hk hm
          exact hk (Or.inr hm)

theorem dictGet_perm {κ ν : Type} [DecidableEq κ] {m1 m2 : List (κ × ν)}
    (h : m1.Perm m2) (hnd : (m1.map Prod.fst).Nodup) (k : κ) :
    dictGet m1 k = dictGet m2 k := by
  have hnd2 : (m2.map Prod.fst).Nodup := ((h.map Prod.fst).nodup_iff).mp hnd
  cases hv : dictGet m1 k with
  | some v =>
      have hm : (k, v) ∈ m1 := (dictGet_eq_some_iff_mem hnd).mp hv
      exact ((dictGet_eq_some_iff_mem hnd2).mpr (h.mem_iff.mp hm)).symm
  | none =>
      have hk : k ∉ m1.map Prod.fst := dictGet_eq_none_iff.mp hv
      have hk2 : k ∉ m2.map Prod.fst := fun hh => hk (((h.map Prod.fst).mem_iff).mpr hh)
      exact (dictGet_eq_none_iff.mpr hk2).symm

theorem insertAll_cons {κ ν : Type} [DecidableEq κ] (m : List (κ × ν)) (p : κ × ν)
    (tl : List (κ × ν)) :
    insertAll m (p :: tl) = insertAll (dictInsert m p.1 p.2) tl := rfl

theorem insertAll_append {κ ν : Type} [DecidableEq κ] (m : List (κ × ν))
    (a b : List (κ × ν)) : insertAll m (a ++ b) = insertAll (insertAll m a) b := by
  simp [insertAll, List.foldl_append]

theorem dictGet_insertAll_not_mem {κ ν : Type} [DecidableEq κ] {ps : List (κ × ν)}
    {k : κ} (m : List (κ × ν)) (h : k ∉ ps.map Prod.fst) :
    dictGet (insertAll m ps) k = dictGet m k := by
  induction ps generalizing m with
  | nil => rfl
  | cons p tl ih =>
      simp only [List.map_cons, List.mem_cons, not_or] at h
      rw [insertAll_cons, ih _ h.2, dictGet_dictInsert_ne _ _ _ _ h.1]

theorem dictGet_insertAll_mem {κ ν : Type} [DecidableEq κ] {ps : List (κ × ν)}
    {k : κ} {v : ν} (m : List (κ × ν)) (hnd : (ps.map Prod.fst).Nodup)
    (hm : (k, v) ∈ ps) : dictGet (insertAll m ps) k = some v := by
  induction ps generalizing m with
  | nil => cases hm
  | cons p tl ih =>
      obtain ⟨k0, v0⟩ := p
      simp only [List.map_cons, List.nodup_cons] at hnd
      rcases List.mem_cons.mp hm with he | hmem
      · rw [Prod.ext_iff] at he
        obtain ⟨hk, hv⟩ := he
        subst hk
        subst hv
        rw [insertAll_cons, dictGet_insertAll_not_mem _ hnd.1]
        exact dictGet_dictInsert_self _ _ _
      · rw [insertAll_cons]
        exact ih _ hnd.2 hmem

theorem dictGet_insertAll_perm {κ ν : Type} [DecidableEq κ] {ps1 ps2 : List (κ × ν)}
    (hperm : ps1.Perm ps2) (hnd : (ps1.map Prod.fst).Nodup) (k : κ) :
    dictGet (insertAll [] ps1) k = dictGet (insertAll [] ps2) k := by
  have hnd2 : (ps2.map Prod.fst).Nodup := ((hperm.map Prod.fst).nodup_iff).mp hnd
  by_cases hk : k ∈ ps1.map Prod.fst
  · obtain ⟨p, hp, hfst⟩ := List.mem_map.mp hk
    obtain ⟨k0, v⟩ := p
    cases hfst
    rw [dictGet_insertAll_mem _ hnd hp,
        dictGet_insertAll_mem _ hnd2 (hperm.mem_iff.mp hp)]
  · have hk2 : k ∉ ps2.map Prod.fst := fun hh => hk (((hperm.map Prod.fst).mem_iff).mpr hh)
    rw [dictGet_insertAll_not_mem _ hk, dictGet_insertAll_not_mem _ hk2]

theorem processZone_foldl_scenes (zs : List RZone) (d0 : Directory) :
    (zs.foldl processZone d0).scenes = d0.scenes := by
  induction zs generalizing d0 with
  | nil => rfl
  | cons z tl ih => rw [List.foldl_cons, ih]; rfl

theorem processZone_foldl_sensors (zs : List RZone) (d0 : Directory) :
    (zs.foldl processZone d0).sensors = d0.sensors := by
  induction zs generalizing d0 with
  | nil => rfl
  | cons z tl ih => rw [List.foldl_cons, ih]; rfl

theorem processZone_foldl_dimmers (zs : List RZone) (d0 : Directory) :
    (zs.foldl processZone d0).dimmers = insertAll d0.dimmers (zonePairs zs) := by
  induction zs generalizing d0 with
  | nil => rfl
  | cons z tl ih =>
      rw [List.foldl_cons, ih]
      rfl

theorem processDevice_foldl_dimmers (devs : List RDevice) (d0 : Directory) :
    (devs.foldl processDevice d0).dimmers = d0.dimmers := by
  induction devs generalizing d0 with
  | nil => rfl
  | cons dev tl ih =>
      rw [List.foldl_cons, ih]
      rw [processDevice]
      split <;> rfl

theorem processDevice_foldl_sensors (devs : List RDevice) (d0 : Directory) :
    (devs.foldl processDevice d0).sensors = insertAll d0.sensors (sensorPairs devs) := by
  induction devs generalizing d0 with
  | nil => rfl
  | cons dev tl ih =>
      rw [List.foldl_cons, ih]
      by_cases h1 : dev.id = 1
      · have hstep : (processDevice d0 dev).sensors = d0.sensors := by
          rw [processDevice, if_pos h1]
        have hpairs : sensorPairs (dev :: tl) = sensorPairs tl := by
          simp [sensorPairs, List.filter_cons, h1]
        rw [hstep, hpairs]
      · have hstep : (processDevice d0 dev).sensors
            = dictInsert d0.sensors dev.id (dev.name, dev.area, dev.buttons.map (·.number)) := by
          rw [processDevice, if_neg h1]
        have hpairs : sensorPairs (dev :: tl)
            = (dev.id, (dev.name, dev.area, dev.buttons.map (·.number))) :: sensorPairs tl := by
          simp [sensorPairs, List.filter_cons, h1]
        rw [hstep, hpairs, insertAll_cons]

theorem processDevice_foldl_scenes_nodup (devs : List RDevice) (d0 : Directory)
    (h : (d0.scenes.map Prod.fst).Nodup) :
    (((devs.foldl processDevice d0).scenes).map Prod.fst).Nodup := by
  induction devs generalizing d0 with
  | nil => exact h
  | cons dev tl ih =>
      rw [List.foldl_cons]
      refine ih _ ?_
      rw [processDevice]
      split
      · have : ∀ (bs : List RButton) (acc : List (Int × String)),
            (acc.map Prod.fst).Nodup →
            ((bs.foldl (fun acc b => if b.name.startsWith "Button " then acc
              else dictInsert acc b.number b.name) acc).map Prod.fst).Nodup := by
          intro bs
          induction bs with
          | nil => intro acc hacc; exact hacc
          | cons b bt ihb =>
              intro acc hacc
              rw [List.foldl_cons]
              refine ihb _ ?_
              split
              · exact hacc
              · exact keys_nodup_dictInsert _ _ hacc
        exact this dev.buttons d0.scenes h
      · exact h

theorem areaPairs_nil {β : Type} (f : String → AreaEntry → Option β) :
    areaPairs f [] = [] := rfl

theorem areaPairs_cons {β : Type} (f : String → AreaEntry → Option β)
    (hd : String × List AreaEntry) (tl : List (String × List AreaEntry)) :
    areaPairs f (hd :: tl) = hd.2.filterMap (f hd.1) ++ areaPairs f tl := by
  simp [areaPairs]

theorem areaPairs_addDevice {β : Type} (f : String → AreaEntry → Option β)
    (ar : List (String × List AreaEntry)) (an : String) (e : AreaEntry) :
    (areaPairs f (addDevice ar an e)).Perm (areaPairs f ar ++ (f an e).toList) := by
  induction ar with
  | nil =>
      rw [addDevice, areaPairs_cons, areaPairs_nil]
      cases h : f an e <;> simp [List.filterMap_cons, h]
  | cons hd tl ih =>
      obtain ⟨k, lis⟩ := hd
      rw [addDevice]
      by_cases hk : k = an
      · rw [if_pos hk]
        subst hk
        rw [areaPairs_cons, areaPairs_cons]
        simp only [List.filterMap_append]
        have hone : List.filterMap (f k) [e] = (f k e).toList := by
          cases h : f k e <;> simp [List.filterMap_cons, h]
        rw [hone, List.append_assoc, List.append_assoc]
        exact List.Perm.append_left _ List.perm_append_comm
      · rw [if_neg hk]
        rw [areaPairs_cons, areaPairs_cons, List.append_assoc]
        exact List.Perm.append_left _ ih

theorem areaPairs_processZone_foldl {β : Type} (f : String → AreaEntry → Option β)
    (zs : List RZone) (d0 : Directory) :
    (areaPairs f ((zs.foldl processZone d0).areas)).Perm
      (areaPairs f d0.areas ++ zs.flatMap fun z => (f z.area (.dimmer z.id z.name)).toList) := by
  induction zs generalizing d0 with
  | nil => simp
  | cons z tl ih =>
      rw [List.foldl_cons, List.flatMap_cons]
      refine ((ih (processZone d0 z)).trans ?_)
      have h1 : (areaPairs f (processZone d0 z).areas).Perm
          (areaPairs f d0.areas ++ (f z.area (.dimmer z.id z.name)).toList) := by
        have he : (processZone d0 z).areas
            = addDevice d0.areas z.area (.dimmer z.id z.name) := rfl
        rw [he]
        exact areaPairs_addDevice f d0.areas z.area (.dimmer z.id z.name)
      refine (List.Perm.append_right _ h1).trans ?_
      rw [List.append_assoc]

theorem areaPairs_processDevice_foldl {β : Type} (f : String → AreaEntry → Option β)
    (devs : List RDevice) (d0 : Directory) :
    (areaPairs f ((devs.foldl processDevice d0).areas)).Perm
      (areaPairs f d0.areas ++ (devs.filter fun dev => dev.id ≠ 1).flatMap
        fun dev => (f dev.area (.sensor dev.id dev.name (dev.buttons.map (·.number)))).toList) := by
  induction devs generalizing d0 with
  | nil => simp
  | cons dev tl ih =>
      rw [List.foldl_cons]
      by_cases h1 : dev.id = 1
      · have hareas : (processDevice d0 dev).areas = d0.areas := by
          rw [processDevice, if_pos h1]
        have hfil : ((dev :: tl).filter fun w => w.id ≠ 1) = tl.filter fun w => w.id ≠ 1 := by
          simp [List.filter_cons, h1]
        rw [hfil]
        refine ((ih (processDevice d0 dev)).trans ?_)
        rw [hareas]
      · have hareas : (processDevice d0 dev).areas
            = addDevice d0.areas dev.area
              (.sensor dev.id dev.name (dev.buttons.map (·.number))) := by
          rw [processDevice, if_neg h1]
        have hfil : ((dev :: tl).filter fun w => w.id ≠ 1)
            = dev :: tl.filter fun w => w.id ≠ 1 := by
          simp [List.filter_cons, h1]
        rw [hfil, List.flatMap_cons]
        refine ((ih (processDevice d0 dev)).trans ?_)
        have h2 : (areaPairs f (processDevice d0 dev).areas).Perm
            (areaPairs f d0.areas
              ++ (f dev.area (.sensor dev.id dev.name (dev.buttons.map (·.number)))).toList) := by
          rw [hareas]
          exact areaPairs_addDevice f d0.areas dev.area _
        refine (List.Perm.append_right _ h2).trans ?_
        rw [List.append_assoc]

theorem zones_flatMap_dimmer (zs : List RZone) :
    (zs.flatMap fun z => (dimmerPair z.area (.dimmer z.id z.name)).toList) = zonePairs zs := by
  induction zs with
  | nil => rfl
  | cons z tl ih => rw [List.flatMap_cons, ih]; rfl

theorem devs_flatMap_dimmer_none (l : List RDevice) :
    (l.flatMap fun dev =>
      (dimmerPair dev.area (.sensor dev.id dev.name (dev.buttons.map (·.number)))).toList) = [] := by
  induction l with
  | nil => rfl
  | cons dev tl ih => rw [List.flatMap_cons, ih]; rfl

theorem devs_flatMap_sensor (l : List RDevice) :
    (l.flatMap fun dev =>
      (sensorPair dev.area (.sensor dev.id dev.name (dev.buttons.map (·.number)))).toList)
      = l.map fun dev => (dev.id, (dev.name, dev.area, dev.buttons.map (·.number))) := by
  induction l with
  | nil => rfl
  | cons dev tl ih => rw [List.flatMap_cons, ih]; rfl

theorem zones_flatMap_sensor_none (zs : List RZone) :
    (zs.flatMap fun z => (sensorPair z.area (.dimmer z.id z.name)).toList) = [] := by
  induction zs with
  | nil => rfl
  | cons z tl ih => rw [List.flatMap_cons, ih]; rfl

theorem yamlEntry_foldl_scenes (an : String) (lis : List AreaEntry) (d0 : Directory) :
    (lis.foldl (yamlEntry an) d0).scenes = d0.scenes := by
  induction lis generalizing d0 with
  | nil => rfl
  | cons e tl ih =>
      rw [List.foldl_cons, ih]
      cases e <;> rfl

theorem yamlEntry_foldl_dimmers (an : String) (lis : List AreaEntry) (d0 : Directory) :
    (lis.foldl (yamlEntry an) d0).dimmers
      = insertAll d0.dimmers (lis.filterMap (dimmerPair an)) := by
  induction lis generalizing d0 with
  | nil => rfl
  | cons e tl ih =>
      rw [List.foldl_cons, ih]
      cases e with
      | dimmer id name => simp [yamlEntry, dimmerPair, List.filterMap_cons, insertAll_cons]
      | sensor id name bl => simp [yamlEntry, dimmerPair, List.filterMap_cons]

theorem yamlEntry_foldl_sensors (an : String) (lis : List AreaEntry) (d0 : Directory) :
    (lis.foldl (yamlEntry an) d0).sensors
      = insertAll d0.sensors (lis.filterMap (sensorPair an)) := by
  induction lis generalizing d0 with
  | nil => rfl
  | cons e tl ih =>
      rw [List.foldl_cons, ih]
      cases e with
      | dimmer id name => simp [yamlEntry, sensorPair, List.filterMap_cons]
      | sensor id name bl => simp [yamlEntry, sensorPair, List.filterMap_cons, insertAll_cons]

theorem yaml_fold_scenes (sc : List (Int × String)) (ar : List (String × List AreaEntry)) :
    (process_integration_yaml sc ar).scenes = sc := by
  rw [process_integration_yaml]
  have hgen : ∀ (ars : List (String × List AreaEntry)) (d0 : Directory),
      (ars.foldl (fun d p => p.2.foldl (yamlEntry p.1) d) d0).scenes = d0.scenes := by
    intro ars
    induction ars with
    | nil => intro d0; rfl
    | cons a tl ih =>
        intro d0
        rw [List.foldl_cons, ih, yamlEntry_foldl_scenes]
  exact hgen ar _

theorem yaml_fold_dimmers (sc : List (Int × String)) (ar : List (String × List AreaEntry)) :
    (process_integration_yaml sc ar).dimmers = insertAll [] (areaPairs dimmerPair ar) := by
  rw [process_integration_yaml]
  have hgen : ∀ (ars : List (String × List AreaEntry)) (d0 : Directory),
      (ars.foldl (fun d p => p.2.foldl (yamlEntry p.1) d) d0).dimmers
        = insertAll d0.dimmers (areaPairs dimmerPair ars) := by
    intro ars
    induction ars with
    | nil => intro d0; rfl
    | cons a tl ih =>
        intro d0
        rw [List.foldl_cons, ih, yamlEntry_foldl_dimmers, areaPairs_cons, insertAll_append]
  exact hgen ar _

theorem yaml_fold_sensors (sc : List (Int × String)) (ar : List (String × List AreaEntry)) :
    (process_integration_yaml sc ar).sensors = insertAll [] (areaPairs sensorPair ar) := by
  rw [process_integration_yaml]
  have hgen : ∀ (ars : List (String × List AreaEntry)) (d0 : Directory),
      (ars.foldl (fun d p => p.2.foldl (yamlEntry p.1) d) d0).sensors
        = insertAll d0.sensors (areaPairs sensorPair ars) := by
    intro ars
    induction ars with
    | nil => intro d0; rfl
    | cons a tl ih =>
        intro d0
        rw [List.foldl_cons, ih, yamlEntry_foldl_sensors, areaPairs_cons, insertAll_append]
  exact hgen ar _

theorem zonePairs_keys (zs : List RZone) :
    (zonePairs zs).map Prod.fst = zs.map RZone.id := by
  induction zs with
  | nil => rfl
  | cons z tl ih => simp [zonePairs, ih]

theorem sensorPairs_keys (devs : List RDevice) :
    (sensorPairs devs).map Prod.fst = (devs.filter fun dev => dev.id ≠ 1).map RDevice.id := by
  have hgen : ∀ l : List RDevice,
      ((l.map fun dev => (dev.id, (dev.name, dev.area, dev.buttons.map (·.number)))).map
        Prod.fst) = l.map RDevice.id := by
    intro l
    induction l with
    | nil => rfl
    | cons dev tl ih => simp [ih]
  exact hgen _

theorem mem_of_mem_dictInsert {κ ν : Type} [DecidableEq κ] :
    ∀ {m : List (κ × ν)} {k : κ} {v : ν} {p : κ × ν},
      p ∈ dictInsert m k v → p ∈ m ∨ p = (k, v) := by
  intro m
  induction m with
  | nil =>
      intro k v p h
      simp only [dictInsert] at h
      exact Or.inr (List.mem_singleton.mp h)
  | cons q rest ih =>
      intro k v p h
      obtain ⟨k0, v0⟩ := q
      by_cases hk : k0 = k
      · simp only [dictInsert, if_pos hk] at h
        rcases List.mem_cons.mp h with h1 | h1
        · subst hk; exact Or.inr h1
        · exact Or.inl (List.mem_cons_of_mem _ h1)
      · simp only [dictInsert, if_neg hk] at h
        rcases List.mem_cons.mp h with h1 | h1
        · exact Or.inl (h1 ▸ List.mem_cons_self _ _)
        · rcases ih h1 with h2 | h2
          · exact Or.inl (List.mem_cons_of_mem _ h2)
          · exact Or.inr h2

theorem parseSQBody_cons_ne {c : Char} (hc : ¬ c = quoteChar) (l : List Char) :
    parseSQBody (c :: l) = (parseSQBody l).map fun p => (c :: p.1, p.2) := by
  rw [parseSQBody.eq_def]
  simp [hc]

theorem parseSQBody_no_quote {s : List Char} (h : quoteChar ∉ s) :
    parseSQBody (s ++ [quoteChar]) = some (s, []) := by
  induction s with
  | nil => simp [parseSQBody]
  | cons c t ih =>
      have hc : ¬ c = quoteChar := fun hcq => h (hcq ▸ List.mem_cons_self c t)
      have ht : quoteChar ∉ t := fun hm => h (List.mem_cons_of_mem c hm)
      rw [List.cons_append, parseSQBody_cons_ne hc, ih ht]
      rfl

theorem unquote_pyQuote {n : String} (h : strOk n) :
    unquote (pyQuote n.data) = some n := by
  have hb := parseSQBody_no_quote (s := n.data) h
  have hmk : String.mk n.data = n := rfl
  simp [unquote, parseSQ, pyQuote, hb, hmk]

theorem parse_scenes_map :
    ∀ (m : List (Int × String)), (∀ p ∈ m, strOk p.2) →
    optMapList (fun p => (unquote p.2).map fun n => (p.1, n))
      (m.map fun p => (p.1, pyQuote p.2.data)) = some m := by
  intro m
  induction m with
  | nil => intro _; rfl
  | cons p t ih =>
      intro h
      have hp : strOk p.2 := h p (List.mem_cons_self p t)
      have ht : ∀ q ∈ t, strOk q.2 := fun q hq => h q (List.mem_cons_of_mem p hq)
      simp [optMapList, unquote_pyQuote hp, ih ht]

theorem parse_entry_flat (e : AreaEntry) (h : entryOk e) :
    parseFlatEntry (entryToFlat e) = some e := by
  cases e with
  | sensor id n bl => simp [entryToFlat, parseFlatEntry, unquote_pyQuote h]
  | dimmer id n => simp [entryToFlat, parseFlatEntry, unquote_pyQuote h]

theorem parse_entries :
    ∀ (lis : List AreaEntry), (∀ e ∈ lis, entryOk e) →
    optMapList parseFlatEntry (lis.map entryToFlat) = some lis := by
  intro lis
  induction lis with
  | nil => intro _; rfl
  | cons e t ih =>
      intro h
      simp [optMapList, parse_entry_flat e (h e (List.mem_cons_self e t)),
        ih (fun x hx => h x (List.mem_cons_of_mem e hx))]

theorem parse_areas_map :
    ∀ (m : List (String × List AreaEntry)), (∀ p ∈ m, areaOkP p) →
    optMapList parseFlatArea
      (m.map fun p => (pyQuote p.1.data, p.2.map entryToFlat)) = some m := by
  intro m
  induction m with
  | nil => intro _; rfl
  | cons p t ih =>
      intro h
      obtain ⟨h1, h2⟩ := h p (List.mem_cons_self p t)
      simp [optMapList, parseFlatArea, unquote_pyQuote h1, parse_entries _ h2,
        ih (fun q hq => h q (List.mem_cons_of_mem p hq))]

theorem parseFlatConfig_dump (d : Directory)
    (h1 : ∀ p ∈ d.scenes, strOk p.2) (h2 : ∀ p ∈ d.areas, areaOkP p) :
    parseFlatConfig (dump_integration_yaml d)
      = some (sortByIntKey d.scenes, sortByStrKey d.areas) := by
  have h1s : ∀ p ∈ sortByIntKey d.scenes, strOk p.2 := fun p hp =>
    h1 p ((List.perm_insertionSort _ _).mem_iff.mp hp)
  have h2s : ∀ p ∈ sortByStrKey d.areas, areaOkP p := fun p hp =>
    h2 p ((List.perm_insertionSort _ _).mem_iff.mp hp)
  simp [parseFlatConfig, dump_integration_yaml, parse_scenes_map _ h1s,
    parse_areas_map _ h2s]

theorem scenes_ok_buttons_foldl :
    ∀ (bs : List RButton), (∀ b ∈ bs, strOk b.name) →
    ∀ (m : List (Int × String)), (∀ p ∈ m, strOk p.2) →
    ∀ p ∈ bs.foldl (fun acc b => if b.name.startsWith "Button " then acc
      else dictInsert acc b.number b.name) m, strOk p.2 := by
  intro bs
  induction bs with
  | nil =>
      intro _ m hm p hp
      simp only [List.foldl_nil] at hp
      exact hm p hp
  | cons b t ih =>
      intro hb m hm p hp
      rw [List.foldl_cons] at hp
      refine ih (fun x hx => hb x (List.mem_cons_of_mem b hx)) _ ?_ p hp
      intro q hq
      by_cases hs : b.name.startsWith "Button " = true
      · rw [if_pos hs] at hq; exact hm q hq
      · rw [if_neg hs] at hq
        rcases mem_of_mem_dictInsert hq with h | h
        · exact hm q h
        · rw [h]; exact hb b (List.mem_cons_self b t)

theorem scenes_ok_processDevice_foldl :
    ∀ (devs : List RDevice), (∀ dev ∈ devs, ∀ b ∈ dev.buttons, strOk b.name) →
    ∀ (d0 : Directory), (∀ p ∈ d0.scenes, strOk p.2) →
    ∀ p ∈ (devs.foldl processDevice d0).scenes, strOk p.2 := by
  intro devs
  induction devs with
  | nil =>
      intro _ d0 h0 p hp
      simp only [List.foldl_nil] at hp
      exact h0 p hp
  | cons dev t ih =>
      intro hd d0 h0 p hp
      rw [List.foldl_cons] at hp
      refine ih (fun x hx => hd x (List.mem_cons_of_mem dev hx)) _ ?_ p hp
      intro q hq
      by_cases h1 : dev.id = 1
      · simp only [processDevice, if_pos h1] at hq
        exact scenes_ok_buttons_foldl dev.buttons (hd dev (List.mem_cons_self dev t))
          d0.scenes h0 q hq
      · simp only [processDevice, if_neg h1] at hq
        exact h0 q hq

theorem areas_ok_addDevice (an : String) (e : AreaEntry)
    (han : strOk an) (he : entryOk e) :
    ∀ (ar : List (String × List AreaEntry)), (∀ p ∈ ar, areaOkP p) →
    ∀ p ∈ addDevice ar an e, areaOkP p := by
  intro ar
  induction ar with
  | nil =>
      intro _ p hp
      simp only [addDevice] at hp
      rw [List.mem_singleton] at hp
      rw [hp]
      refine ⟨han, ?_⟩
      intro x hx
      rw [List.mem_singleton] at hx
      rw [hx]; exact he
  | cons q rest ih =>
      intro h p hp
      obtain ⟨k, lis⟩ := q
      by_cases hk : k = an
      · simp only [addDevice, if_pos hk] at hp
        rcases List.mem_cons.mp hp with h1 | h1
        · rw [h1]
          obtain ⟨ha, hb⟩ := h (k, lis) (List.mem_cons_self _ _)
          refine ⟨ha, ?_⟩
          intro x hx
          rcases List.mem_append.mp hx with h2 | h2
          · exact hb x h2
          · rw [List.mem_singleton] at h2
            rw [h2]; exact he
        · exact h p (List.mem_cons_of_mem _ h1)
      · simp only [addDevice, if_neg hk] at hp
        rcases List.mem_cons.mp hp with h1 | h1
        · rw [h1]; exact h (k, lis) (List.mem_cons_self _ _)
        · exact ih (fun x hx => h x (List.mem_cons_of_mem _ hx)) p h1

theorem areas_ok_processDevice_foldl :
    ∀ (devs : List RDevice), (∀ dev ∈ devs, strOk dev.name ∧ strOk dev.area) →
    ∀ (d0 : Directory), (∀ p ∈ d0.areas, areaOkP p) →
    ∀ p ∈ (devs.foldl processDevice d0).areas, areaOkP p := by
  intro devs
  induction devs with
  | nil =>
      intro _ d0 h0 p hp
      simp only [List.foldl_nil] at hp
      exact h0 p hp
  | cons dev t ih =>
      intro hd d0 h0 p hp
      rw [List.foldl_cons] at hp
      refine ih (fun x hx => hd x (List.mem_cons_of_mem dev hx)) _ ?_ p hp
      intro q hq
      by_cases h1 : dev.id = 1
      · simp only [processDevice, if_pos h1] at hq
        exact h0 q hq
      · simp only [processDevice, if_neg h1] at hq
        obtain ⟨hn, ha⟩ := hd dev (List.mem_cons_self dev t)
        exact areas_ok_addDevice dev.area
          (.sensor dev.id dev.name (dev.buttons.map (·.number)))
          ha hn d0.areas h0 q hq

theorem areas_ok_processZone_foldl :
    ∀ (zs : List RZone), (∀ z ∈ zs, strOk z.name ∧ strOk z.area) →
    ∀ (d0 : Directory), (∀ p ∈ d0.areas, areaOkP p) →
    ∀ p ∈ (zs.foldl processZone d0).areas, areaOkP p := by
  intro zs
  induction zs with
  | nil =>
      intro _ d0 h0 p hp
      simp only [List.foldl_nil] at hp
      exact h0 p hp
  | cons z t ih =>
      intro hz d0 h0 p hp
      rw [List.foldl_cons] at hp
      refine ih (fun x hx => hz x (List.mem_cons_of_mem z hx)) _ ?_ p hp
      intro q hq
      simp only [processZone] at hq
      obtain ⟨hn, ha⟩ := hz z (List.mem_cons_self z t)
      exact areas_ok_addDevice z.area (.dimmer z.id z.name) ha hn d0.areas h0 q hq

/-- C3 (amended): for every directory report whose sensor devices (the
devices other than the Bridge id 1) have pairwise distinct ids, whose zones
have pairwise distinct ids, and all of whose names (device, button, zone
and area names) are free of the single-quote character, serializing the
loaded report with dump_integration_yaml_string parses back (the emitted
quote-wrapped names are well-formed single-quoted YAML scalars exactly
when the names hold no quote, since lines 134 and 137-138 never escape
one) to the sorted scenes and areas maps, and loading those maps back
yields scene, dimmer and sensor maps equal (as maps, i.e. under every
lookup) to those produced by the original load. -/
theorem integration_round_trip (r : Report)
    (hs : ((r.devices.filter fun dev => dev.id ≠ 1).map RDevice.id).Nodup)
    (hz : (r.zones.map RZone.id).Nodup)
    (hqd : ∀ dev ∈ r.devices, strOk dev.name ∧ strOk dev.area ∧
      ∀ b ∈ dev.buttons, strOk b.name)
    (hqz : ∀ z ∈ r.zones, strOk z.name ∧ strOk z.area) :
    parseFlatConfig (dump_integration_yaml (process_integration_report r))
      = some (sortByIntKey (process_integration_report r).scenes,
              sortByStrKey (process_integration_report r).areas) ∧
    (∀ k, dictGet (process_integration_yaml
        (sortByIntKey (process_integration_report r).scenes)
        (sortByStrKey (process_integration_report r).areas)).scenes k
      = dictGet (process_integration_report r).scenes k) ∧
    (∀ k, dictGet (process_integration_yaml
        (sortByIntKey (process_integration_report r).scenes)
        (sortByStrKey (process_integration_report r).areas)).dimmers k
      = dictGet (process_integration_report r).dimmers k) ∧
    (∀ k, dictGet (process_integration_yaml
        (sortByIntKey (process_integration_report r).scenes)
        (sortByStrKey (process_integration_report r).areas)).sensors k
      = dictGet (process_integration_report r).sensors k) := by
  have hinit : process_integration_report r
      = r.zones.foldl processZone (r.devices.foldl processDevice ⟨[], [], [], []⟩) := rfl
  refine ⟨?_, ?_, ?_, ?_⟩
  · refine parseFlatConfig_dump _ ?_ ?_
    · intro p hp
      rw [hinit, processZone_foldl_scenes] at hp
      exact scenes_ok_processDevice_foldl r.devices
        (fun dev hdev => (hqd dev hdev).2.2) _ (by simp) p hp
    · intro p hp
      rw [hinit] at hp
      refine areas_ok_processZone_foldl r.zones hqz _ ?_ p hp
      exact areas_ok_processDevice_foldl r.devices
        (fun dev hdev => ⟨(hqd dev hdev).1, (hqd dev hdev).2.1⟩) _ (by simp)
  · intro k
    rw [yaml_fold_scenes]
    have hscnd : (((process_integration_report r).scenes).map Prod.fst).Nodup := by
      rw [hinit, processZone_foldl_scenes]
      exact processDevice_foldl_scenes_nodup _ _ (by simp)
    have hsort : (sortByIntKey (process_integration_report r).scenes).Perm
        ((process_integration_report r).scenes) := List.perm_insertionSort _ _
    have hnds : ((sortByIntKey (process_integration_report r).scenes).map Prod.fst).Nodup :=
      ((hsort.map Prod.fst).nodup_iff).mpr hscnd
    exact dictGet_perm hsort hnds k
  · intro k
    rw [yaml_fold_dimmers]
    have hdm : (process_integration_report r).dimmers = insertAll [] (zonePairs r.zones) := by
      rw [hinit, processZone_foldl_dimmers, processDevice_foldl_dimmers]
    rw [hdm]
    have hpermB : (areaPairs dimmerPair ((process_integration_report r).areas)).Perm
        (zonePairs r.zones) := by
      rw [hinit]
      have h1 := areaPairs_processZone_foldl dimmerPair r.zones
        (r.devices.foldl processDevice ⟨[], [], [], []⟩)
      rw [zones_flatMap_dimmer] at h1
      have h2 := areaPairs_processDevice_foldl dimmerPair r.devices
        (⟨[], [], [], []⟩ : Directory)
      rw [devs_flatMap_dimmer_none] at h2
      have hbase : areaPairs dimmerPair ((⟨[], [], [], []⟩ : Directory).areas) = [] := rfl
      rw [hbase, List.append_nil] at h2
      have h2' : areaPairs dimmerPair
          ((r.devices.foldl processDevice ⟨[], [], [], []⟩).areas) = [] := h2.eq_nil
      refine h1.trans ?_
      rw [h2', List.nil_append]
    have hperm : (areaPairs dimmerPair
        (sortByStrKey ((process_integration_report r).areas))).Perm (zonePairs r.zones) :=
      ((List.perm_insertionSort _ _).flatMap_right _).trans hpermB
    have hznd : ((zonePairs r.zones).map Prod.fst).Nodup := by
      rw [zonePairs_keys]
      exact hz
    have hnd1 := ((hperm.map Prod.fst).nodup_iff).mpr hznd
    exact dictGet_insertAll_perm hperm hnd1 k
  · intro k
    rw [yaml_fold_sensors]
    have hsn : (process_integration_report r).sensors
        = insertAll [] (sensorPairs r.devices) := by
      rw [hinit, processZone_foldl_sensors, processDevice_foldl_sensors]
    rw [hsn]
    have hpermB : (areaPairs sensorPair ((process_integration_report r).areas)).Perm
        (sensorPairs r.devices) := by
      rw [hinit]
      have h1 := areaPairs_processZone_foldl sensorPair r.zones
        (r.devices.foldl processDevice ⟨[], [], [], []⟩)
      rw [zones_flatMap_sensor_none, List.append_nil] at h1
      have h2 := areaPairs_processDevice_foldl sensorPair r.devices
        (⟨[], [], [], []⟩ : Directory)
      rw [devs_flatMap_sensor] at h2
      have hbase : areaPairs sensorPair ((⟨[], [], [], []⟩ : Directory).areas) = [] := rfl
      rw [hbase, List.nil_append] at h2
      refine h1.trans ?_
      exact h2
    have hperm : (areaPairs sensorPair
        (sortByStrKey ((process_integration_report r).areas))).Perm
        (sensorPairs r.devices) :=
      ((List.perm_insertionSort _ _).flatMap_right _).trans hpermB
    have hsnd : ((sensorPairs r.devices).map Prod.fst).Nodup := by
      rw [sensorPairs_keys]
      exact hs
    have hnd1 := ((hperm.map Prod.fst).nodup_iff).mpr hsnd
    exact dictGet_insertAll_perm hperm hnd1 k

/-- Witness for C3 at the concrete exampleReport (whose sensor ids and
zone ids are distinct and whose names are quote-free, both discharged by
computation): the dumped text reparses, and the reloaded maps agree with
the original ones at the scene key 3, the dimmer key 23 and the sensor
key 28. -/
theorem integration_round_trip_witness :
    parseFlatConfig (dump_integration_yaml (process_integration_report exampleReport))
      = some (sortByIntKey (process_integration_report exampleReport).scenes,
              sortByStrKey (process_integration_report exampleReport).areas) ∧
    (dictGet (process_integration_yaml
        (sortByIntKey (process_integration_report exampleReport).scenes)
        (sortByStrKey (process_integration_report exampleReport).areas)).scenes 3
      = dictGet (process_integration_report exampleReport).scenes 3) ∧
    (dictGet (process_integration_yaml
        (sortByIntKey (process_integration_report exampleReport).scenes)
        (sortByStrKey (process_integration_report exampleReport).areas)).dimmers 23
      = dictGet (process_integration_report exampleReport).dimmers 23) ∧
    (dictGet (process_integration_yaml
        (sortByIntKey (process_integration_report exampleReport).scenes)
        (sortByStrKey (process_integration_report exampleReport).areas)).sensors 28
      = dictGet (process_integration_report exampleReport).sensors 28) := by
  have h := integration_round_trip exampleReport (by decide) (by decide)
    (by decide) (by decide)
  exact ⟨h.1, h.2.1 3, h.2.2.1 23, h.2.2.2 28⟩

/-- C3 counterexample: a report with one zone named Bob.s Den-style with a
possessive quote.  The dump emits the name through "'%s'" with the inner
quote unescaped, the resulting token is not a well-formed single-quoted
scalar (the inner quote closes the scalar early, leaving trailing text),
so reloading the dumped document fails entirely, while the original load
carries the zone in its dimmer map: the claimed round trip does not hold
for this valid report. -/
theorem integration_claim_counterexample :
    parseFlatConfig (dump_integration_yaml (process_integration_report exBadReport))
      = none ∧
    dictGet (process_integration_report exBadReport).dimmers 23
      = some (exBadName, String.mk ['D', 'e', 'n']) := by
  exact ⟨rfl, rfl⟩

end Porter
